import Mathlib

/-!
Verification development for the "find the impostor" party game.

The repository bundles two architectural variants of the same core:
a Firestore document-store variant (`App.tsx`, whose room actions are
`joinRoom`, `startGame`, `passTurn`, `nextTurn`, `castVote`,
`calculateResults`, `resetGame`, `handleAuth`) and a PeerJS host-mesh
variant (`GameManager` with `handleMessage`).  Both are embedded below as
pure Lean functions; the ambient randomness (shuffles, random word) and
wall-clock values (`Date.now()`, timers) are passed in as explicit
parameters, and the Firestore document updates are modelled as functions
from the room record to the room record.
-/

namespace ImposterGame

/-! ### Base64, the semantics of the browser `btoa` / `atob` pair -/

/-- The 64-character base64 alphabet used by `btoa`. -/
def base64Alphabet : List Char :=
  ['A', 'B', 'C', 'D', 'E', 'F', 'G', 'H', 'I', 'J', 'K', 'L', 'M',
   'N', 'O', 'P', 'Q', 'R', 'S', 'T', 'U', 'V', 'W', 'X', 'Y', 'Z',
   'a', 'b', 'c', 'd', 'e', 'f', 'g', 'h', 'i', 'j', 'k', 'l', 'm',
   'n', 'o', 'p', 'q', 'r', 's', 't', 'u', 'v', 'w', 'x', 'y', 'z',
   '0', '1', '2', '3', '4', '5', '6', '7', '8', '9', '+', '/']

/-- Character for a 6-bit value. -/
def b64Char (n : Nat) : Char := base64Alphabet.getD n 'A'

/-- Index of a base64 character in the alphabet. -/
def b64Index (c : Char) : Nat := base64Alphabet.indexOf c

/-- `btoa` on a byte string (each byte `< 256`), producing base64 text with
`=` padding, exactly as the browser primitive does. -/
def btoa : List Nat → List Char
  | [] => []
  | [b1] => [b64Char (b1 / 4), b64Char (b1 % 4 * 16), '=', '=']
  | [b1, b2] =>
      [b64Char (b1 / 4), b64Char (b1 % 4 * 16 + b2 / 16), b64Char (b2 % 16 * 4), '=']
  | b1 :: b2 :: b3 :: rest =>
      b64Char (b1 / 4) :: b64Char (b1 % 4 * 16 + b2 / 16) ::
      b64Char (b2 % 16 * 4 + b3 / 64) :: b64Char (b3 % 64) :: btoa rest

/-- `atob`, the inverse browser primitive: decodes four base64 characters to
three bytes, with `=` padding marking short final groups. -/
def atob : List Char → List Nat
  | c1 :: c2 :: c3 :: c4 :: rest =>
      if c3 = '=' then [b64Index c1 * 4 + b64Index c2 / 16]
      else if c4 = '=' then
        [b64Index c1 * 4 + b64Index c2 / 16, b64Index c2 % 16 * 16 + b64Index c3 / 4]
      else
        (b64Index c1 * 4 + b64Index c2 / 16) ::
        (b64Index c2 % 16 * 16 + b64Index c3 / 4) ::
        (b64Index c3 % 4 * 64 + b64Index c4) :: atob rest
  | _ => []

theorem b64Index_b64Char (d : Nat) (h : d < 64) : b64Index (b64Char d) = d := by
  have key : ∀ x : Fin 64, b64Index (b64Char x.val) = x.val := by decide
  exact key ⟨d, h⟩

theorem b64Char_ne_eq (d : Nat) (h : d < 64) : b64Char d ≠ '=' := by
  have key : ∀ x : Fin 64, b64Char x.val ≠ '=' := by decide
  exact key ⟨d, h⟩

/-- `atob` inverts `btoa` on byte strings: the exact sense in which base64 is
a reversible encoding. -/
theorem atob_btoa (bs : List Nat) (h : ∀ b ∈ bs, b < 256) : atob (btoa bs) = bs := by
  induction bs using btoa.induct with
  | case1 => simp [btoa, atob]
  | case2 b1 =>
      have hb1 : b1 < 256 := h b1 (by simp)
      have h1 : b1 / 4 < 64 := by omega
      have h2 : b1 % 4 * 16 < 64 := by omega
      rw [btoa, atob]
      rw [if_pos rfl]
      rw [b64Index_b64Char _ h1, b64Index_b64Char _ h2]
      have e1 : b1 / 4 * 4 + b1 % 4 * 16 / 16 = b1 := by omega
      rw [e1]
  | case3 b1 b2 =>
      have hb1 : b1 < 256 := h b1 (by simp)
      have hb2 : b2 < 256 := h b2 (by simp)
      have h1 : b1 / 4 < 64 := by omega
      have h2 : b1 % 4 * 16 + b2 / 16 < 64 := by omega
      have h3 : b2 % 16 * 4 < 64 := by omega
      rw [btoa, atob]
      rw [if_neg (b64Char_ne_eq _ h3), if_pos rfl]
      rw [b64Index_b64Char _ h1, b64Index_b64Char _ h2, b64Index_b64Char _ h3]
      have e1 : b1 / 4 * 4 + (b1 % 4 * 16 + b2 / 16) / 16 = b1 := by omega
      have e2 : (b1 % 4 * 16 + b2 / 16) % 16 * 16 + b2 % 16 * 4 / 4 = b2 := by omega
      rw [e1, e2]
  | case4 b1 b2 b3 rest ih =>
      have hb1 : b1 < 256 := h b1 (by simp)
      have hb2 : b2 < 256 := h b2 (by simp)
      have hb3 : b3 < 256 := h b3 (by simp)
      have h1 : b1 / 4 < 64 := by omega
      have h2 : b1 % 4 * 16 + b2 / 16 < 64 := by omega
      have h3 : b2 % 16 * 4 + b3 / 64 < 64 := by omega
      have h4 : b3 % 64 < 64 := by omega
      have hrest : ∀ b ∈ rest, b < 256 := fun b hb => h b (by simp [hb])
      rw [btoa, atob]
      rw [if_neg (b64Char_ne_eq _ h3), if_neg (b64Char_ne_eq _ h4)]
      rw [b64Index_b64Char _ h1, b64Index_b64Char _ h2, b64Index_b64Char _ h3,
          b64Index_b64Char _ h4, ih hrest]
      have e1 : b1 / 4 * 4 + (b1 % 4 * 16 + b2 / 16) / 16 = b1 := by omega
      have e2 : (b1 % 4 * 16 + b2 / 16) % 16 * 16 + (b2 % 16 * 4 + b3 / 64) / 4 = b2 := by omega
      have e3 : (b2 % 16 * 4 + b3 / 64) % 4 * 64 + b3 % 64 = b3 := by omega
      rw [e1, e2, e3]

/-! ### String-keyed maps

Firestore documents hold JS objects: string-keyed maps whose keys keep
insertion order.  `updateDoc` with a dotted field path sets one key.  We
model such an object as an association list with unique keys; `setEntry`
is the semantics of setting a key (replace in place, or append if new).
-/

/-- First value stored under key `k`. -/
def lookupEntry {α : Type} (ps : List (String × α)) (k : String) : Option α :=
  match ps with
  | [] => none
  | e :: rest => if e.1 = k then some e.2 else lookupEntry rest k

/-- Keys of the object, in order. -/
def keysOf {α : Type} (ps : List (String × α)) : List String := ps.map Prod.fst

/-- `obj[k] = v`: replace the entry in place when the key exists, append a
fresh entry otherwise. -/
def setEntry {α : Type} (ps : List (String × α)) (k : String) (v : α) :
    List (String × α) :=
  if k ∈ keysOf ps then ps.map (fun e => if e.1 = k then (k, v) else e)
  else ps ++ [(k, v)]

theorem keysOf_condMap {α : Type} (ps : List (String × α)) (k : String) (v : α) :
    keysOf (ps.map (fun e => if e.1 = k then (k, v) else e)) = keysOf ps := by
  induction ps with
  | nil => rfl
  | cons e rest ih =>
      by_cases he : e.1 = k
      · simp [keysOf, if_pos he, he] at ih ⊢
        exact ih
      · simp [keysOf, if_neg he] at ih ⊢
        exact ih

theorem lookup_condMap_same {α : Type} (ps : List (String × α)) (k : String) (v : α)
    (hk : k ∈ keysOf ps) :
    lookupEntry (ps.map (fun e => if e.1 = k then (k, v) else e)) k = some v := by
  induction ps with
  | nil => simp [keysOf] at hk
  | cons e rest ih =>
      by_cases he : e.1 = k
      · simp [lookupEntry, if_pos he]
      · have hk2 : k ∈ keysOf rest := by
          simp [keysOf] at hk
          rcases hk with h1 | h1
          · exact absurd h1.symm he
          · simpa [keysOf] using h1
        simp only [List.map_cons, if_neg he, lookupEntry]
        exact ih hk2

theorem lookup_condMap_other {α : Type} (ps : List (String × α)) (k u : String) (v : α)
    (hne : k ≠ u) :
    lookupEntry (ps.map (fun e => if e.1 = k then (k, v) else e)) u = lookupEntry ps u := by
  induction ps with
  | nil => rfl
  | cons e rest ih =>
      by_cases he : e.1 = k
      · simp only [List.map_cons, if_pos he, lookupEntry, if_neg hne]
        rw [if_neg (show ¬ e.1 = u from he ▸ hne)]
        exact ih
      · simp only [List.map_cons, if_neg he, lookupEntry]
        by_cases heu : e.1 = u
        · simp [heu]
        · rw [if_neg heu, if_neg heu]
          exact ih

theorem lookup_append_single_same {α : Type} (ps : List (String × α)) (k : String)
    (v : α) (hk : k ∉ keysOf ps) : lookupEntry (ps ++ [(k, v)]) k = some v := by
  induction ps with
  | nil => simp [lookupEntry]
  | cons e rest ih =>
      have he : e.1 ≠ k := fun hcon => hk (by simp [keysOf, hcon])
      have hk2 : k ∉ keysOf rest := fun hcon => hk (by simp [keysOf] at hcon ⊢; right; exact hcon)
      simp only [List.cons_append, lookupEntry, if_neg he]
      exact ih hk2

theorem lookup_append_single_other {α : Type} (ps : List (String × α)) (k u : String)
    (v : α) (hne : k ≠ u) : lookupEntry (ps ++ [(k, v)]) u = lookupEntry ps u := by
  induction ps with
  | nil => simp [lookupEntry, if_neg hne]
  | cons e rest ih =>
      simp only [List.cons_append, lookupEntry]
      by_cases heu : e.1 = u
      · simp [heu]
      · rw [if_neg heu, if_neg heu]
        exact ih

theorem lookupEntry_setEntry_same {α : Type} (ps : List (String × α)) (k : String)
    (v : α) : lookupEntry (setEntry ps k v) k = some v := by
  unfold setEntry
  by_cases hk : k ∈ keysOf ps
  · rw [if_pos hk]
    exact lookup_condMap_same ps k v hk
  · rw [if_neg hk]
    exact lookup_append_single_same ps k v hk

theorem lookupEntry_setEntry_other {α : Type} (ps : List (String × α)) (k u : String)
    (v : α) (hne : k ≠ u) : lookupEntry (setEntry ps k v) u = lookupEntry ps u := by
  unfold setEntry
  by_cases hk : k ∈ keysOf ps
  · rw [if_pos hk]
    exact lookup_condMap_other ps k u v hne
  · rw [if_neg hk]
    exact lookup_append_single_other ps k u v hne

theorem keysOf_setEntry {α : Type} (ps : List (String × α)) (k : String) (v : α) :
    keysOf (setEntry ps k v) = if k ∈ keysOf ps then keysOf ps else keysOf ps ++ [k] := by
  unfold setEntry
  by_cases hk : k ∈ keysOf ps
  · rw [if_pos hk, if_pos hk]
    exact keysOf_condMap ps k v
  · rw [if_neg hk, if_neg hk]
    simp [keysOf]

theorem keysOf_mapVal {α β : Type} (ps : List (String × α)) (f : String → α → β) :
    keysOf (ps.map (fun e => (e.1, f e.1 e.2))) = keysOf ps := by
  induction ps with
  | nil => rfl
  | cons e rest _ => simp [keysOf]

theorem lookupEntry_mapVal {α β : Type} (ps : List (String × α)) (f : String → α → β)
    (u : String) :
    lookupEntry (ps.map (fun e => (e.1, f e.1 e.2))) u = (lookupEntry ps u).map (f u) := by
  induction ps with
  | nil => rfl
  | cons e rest ih =>
      by_cases he : e.1 = u
      · subst he; simp [lookupEntry]
      · simp only [List.map_cons, lookupEntry, if_neg he]
        exact ih

theorem lookupEntry_eq_some_of_mem_keys {α : Type} (ps : List (String × α))
    (u : String) (h : u ∈ keysOf ps) : ∃ v, lookupEntry ps u = some v := by
  induction ps with
  | nil => simp [keysOf] at h
  | cons e rest ih =>
      by_cases he : e.1 = u
      · exact ⟨e.2, by simp [lookupEntry, he]⟩
      · have h2 : u ∈ keysOf rest := by
          simp [keysOf] at h
          rcases h with h1 | h1
          · exact absurd h1.symm he
          · simpa [keysOf] using h1
        obtain ⟨v, hv⟩ := ih h2
        exact ⟨v, by simp [lookupEntry, if_neg he, hv]⟩

theorem mem_keys_of_lookupEntry_eq_some {α : Type} (ps : List (String × α))
    (u : String) (v : α) (h : lookupEntry ps u = some v) : u ∈ keysOf ps := by
  induction ps with
  | nil => simp [lookupEntry] at h
  | cons e rest ih =>
      by_cases he : e.1 = u
      · simp [keysOf, he]
      · simp only [lookupEntry, if_neg he] at h
        simp [keysOf]
        right
        simpa [keysOf] using ih h

/-! ### Room Snapshot data model (Firestore document-store variant)

Mirrors the `Room` interface of `App.tsx`: phases are the `state` field
values `lobby / playing / voting / result`; `players` is the keyed map of
Player records; `imposterIds`, `turnOrder` are id lists; `votes` maps
voter to target.  Message timestamps (`Date.now()`) and the round timer
are passed to the operations as explicit parameters where the source
reads the ambient clock.
-/

/-- A Player record of the room document. -/
structure Player where
  name : String
  score : Int
  lastScoreGain : Int
  role : String
  isReady : Bool
  passedTurn : List String
  deriving Repr, DecidableEq

/-- The `state` field of the room document. -/
inductive Phase
  | lobby
  | playing
  | voting
  | result
  deriving Repr, DecidableEq

/-- One chat record; system messages have sender `"System"` and no ids. -/
structure Chat where
  senderId : Option String := none
  sender : String
  recipientId : Option String := none
  msg : String
  time : Nat := 0
  deriving Repr, DecidableEq

/-- One completed-round summary appended to `historyLog`. -/
structure HistoryEntry where
  date : String
  imposters : String
  word : String
  result : String
  duration : Nat
  deriving Repr, DecidableEq

/-- The full Room Snapshot (the Firestore room document). -/
structure Room where
  id : String
  hostId : String
  state : Phase
  category : String
  word : String
  imposterIds : List String
  imposterCount : Nat
  round : Nat
  maxRounds : Nat
  players : List (String × Player)
  turnOrder : List String
  currentTurnIndex : Nat
  votes : List (String × String)
  chats : List Chat
  historyLog : List HistoryEntry
  deriving Repr, DecidableEq

/-- The fresh Player record written by `joinRoom` (and by `createRoom` for
the host): zero score, empty role, not ready, no pass acknowledgements. -/
def freshPlayer (nm : String) : Player :=
  { name := nm, score := 0, lastScoreGain := 0, role := "", isReady := false,
    passedTurn := [] }

/-- `joinRoom`: one `updateDoc` setting `players.<uid>` to a fresh record.
The source performs this write whenever the room document exists, with no
membership, phase or host check. -/
def joinRoom (uid nm : String) (r : Room) : Room :=
  { r with players := setEntry r.players uid (freshPlayer nm) }

/-- `castVote`: one `updateDoc` setting `votes.<uid>` to the target id; no
host, phase or membership check appears in the handler. -/
def castVote (uid targetId : String) (r : Room) : Room :=
  { r with votes := setEntry r.votes uid targetId }

/-- The impostor count chosen by `startGame`:
`Math.min(room.imposterCount || 1, Math.floor(pIds.length / 2) || 1)`. -/
def chosenImposterCount (configured n : Nat) : Nat :=
  min (if configured = 0 then 1 else configured) (if n / 2 = 0 then 1 else n / 2)

/-- `startGame`: picks `secretWord` (random list element), takes the first
`chosenImposterCount` ids of a shuffled copy of the player ids as the
impostor set, assigns roles, clears pass acknowledgements, installs a
second shuffle as `turnOrder`, resets the turn pointer, the votes and the
word, and moves the phase to `playing`.  The two shuffles are the
`shuffled` and `order` parameters. -/
def startGame (secretWord : String) (shuffled order : List String) (now : Nat)
    (r : Room) : Room :=
  let pIds := keysOf r.players
  let count := chosenImposterCount r.imposterCount pIds.length
  let imposterIds := shuffled.take count
  let updatedPlayers := r.players.map (fun e =>
    (e.1, { e.2 with
              role := if e.1 ∈ imposterIds then "Imposter" else "Crew",
              passedTurn := [] }))
  { r with
      state := Phase.playing,
      word := secretWord,
      imposterIds := imposterIds,
      players := updatedPlayers,
      turnOrder := order,
      currentTurnIndex := 0,
      votes := [],
      chats := r.chats ++
        [{ sender := "System",
           msg := "Game Started! " ++ toString count ++ " Imposter(s) are among us...",
           time := now }] }

/-- `nextTurn`: advance the turn pointer, rolling over into a new round and
into the voting phase after the last round, and clear every player's
`passedTurn` list. -/
def nextTurn (r : Room) : Room :=
  let n0 := r.currentTurnIndex + 1
  let step : Nat × Nat × Phase :=
    if n0 ≥ r.turnOrder.length then
      let nr := r.round + 1
      (0, nr, if nr > r.maxRounds then Phase.voting else Phase.playing)
    else (n0, r.round, Phase.playing)
  { r with
      currentTurnIndex := step.1,
      round := step.2.1,
      state := step.2.2,
      players := r.players.map (fun e => (e.1, { e.2 with passedTurn := [] })) }

/-- `passTurn`: the sender acknowledges a pass for `targetId`.  The handler
reads `room.players[targetId]` (crashing if absent, modelled as a no-op),
appends the sender to that player's `passedTurn` unless already present,
and advances the turn once the acknowledgement count exceeds half the
player count.  There is no check that `targetId` is the current
turn-holder. -/
def passTurn (uid targetId : String) (r : Room) : Room :=
  match lookupEntry r.players targetId with
  | none => r
  | some targetPlayer =>
      if uid ∈ targetPlayer.passedTurn then r
      else
        let newPassedBy := targetPlayer.passedTurn ++ [uid]
        let tp2 := { targetPlayer with passedTurn := newPassedBy }
        let r1 := { r with players := setEntry r.players targetId tp2 }
        let totalPlayers := r.players.length
        if newPassedBy.length * 2 > totalPlayers then nextTurn r1 else r1

/-- `resetGame` (the `RESET_ROOM` intent): a single unconditional
`updateDoc`.  The handler contains no host check and no phase check; those
guards exist only in the UI, which shows the button to the host on the
result screen. -/
def resetGame (r : Room) : Room :=
  { r with
      state := Phase.lobby,
      round := 1,
      votes := [],
      imposterIds := [],
      word := "",
      turnOrder := [],
      currentTurnIndex := 0 }

/-! ### Vote tallying (`calculateResults`) -/

/-- One step of building `voteCounts`: bump the target's tally, creating the
entry on first sight, as `voteCounts[vId] = (voteCounts[vId] || 0) + 1`
does on a JS object. -/
def tallyStep (acc : List (String × Nat)) (t : String) : List (String × Nat) :=
  if t ∈ keysOf acc then acc.map (fun e => (e.1, if e.1 = t then e.2 + 1 else e.2))
  else acc ++ [(t, 1)]

/-- `voteCounts`: per-target tallies in first-occurrence order of the vote
values. -/
def voteCounts (votes : List (String × String)) : List (String × Nat) :=
  votes.foldl (fun acc e => tallyStep acc e.2) []

/-- One step of the winner scan over `Object.entries(voteCounts)`: a larger
count takes the lead, an equal count voids it. -/
def votedOutStep (acc : Nat × Option String) (e : String × Nat) : Nat × Option String :=
  if e.2 > acc.1 then (e.2, some e.1)
  else if e.2 = acc.1 then (acc.1, none)
  else acc

/-- `votedOutId` as `calculateResults` computes it. -/
def votedOut (votes : List (String × String)) : Option String :=
  ((voteCounts votes).foldl votedOutStep (0, none)).2

/-- Number of votes cast for target `t`. -/
def countVotesFor (votes : List (String × String)) (t : String) : Nat :=
  (votes.filter (fun e => e.2 = t)).length

/-- `isImposterCaught`: the scanned-out target is a member of
`imposterIds`. -/
def imposterCaught (r : Room) : Bool :=
  match votedOut r.votes with
  | none => false
  | some v => r.imposterIds.contains v

/-- Names of the impostors joined for the history entry. -/
def imposterNames (r : Room) : String :=
  String.intercalate ", "
    (r.imposterIds.map (fun i => ((lookupEntry r.players i).map Player.name).getD ""))

/-- The win message of the flat-scoring `calculateResults`. -/
def winMessage (r : Room) : String :=
  if imposterCaught r then
    "Crew Wins! The Imposter (" ++
      (((votedOut r.votes).bind (fun v => lookupEntry r.players v)).map Player.name).getD ""
      ++ ") was caught!"
  else "Imposter Wins! They evaded capture. (It was " ++ imposterNames r ++ ")"

/-- `calculateResults` (flat scoring variant): zero the per-round gains,
then award `+10` to every non-impostor when the impostors are caught, or
`+20` to every impostor when they evade; append a history entry and a
system chat; move the phase to `result`.  The evade branch iterates
`imposterIds` and is modelled by the same fold. -/
def calculateResults (dateStr : String) (duration now : Nat) (r : Room) : Room :=
  let caught := imposterCaught r
  let ps1 := r.players.map (fun e => (e.1, { e.2 with lastScoreGain := (0 : Int) }))
  let ps2 :=
    if caught then
      ps1.map (fun e =>
        if r.imposterIds.contains e.1 then e
        else (e.1, { e.2 with score := e.2.score + 10, lastScoreGain := (10 : Int) }))
    else
      r.imposterIds.foldl (fun ps i =>
        ps.map (fun e =>
          if e.1 = i then (e.1, { e.2 with score := e.2.score + 20, lastScoreGain := (20 : Int) })
          else e)) ps1
  let winMsg := winMessage r
  { r with
      state := Phase.result,
      players := ps2,
      historyLog := r.historyLog ++
        [{ date := dateStr, imposters := imposterNames r, word := r.word,
           result := winMsg, duration := duration }],
      chats := r.chats ++ [{ sender := "System", msg := winMsg, time := now }] }

/-! ### Refined scoring variant

The second `App.tsx` iteration replaces the flat awards with per-vote
scoring; the vote-counting and winner scan are identical.
-/

/-- The per-player gain of the refined `calculateResults`, exactly as the
source computes it from the tallied `voteCounts` object. -/
def refinedGain (r : Room) (id : String) : Int :=
  let votedOutId := votedOut r.votes
  let caught := imposterCaught r
  let majorityCount := r.players.length / 2 + 1
  let myVote := lookupEntry r.votes id
  let isCorrectVote :=
    match myVote with
    | none => false
    | some v => r.imposterIds.contains v
  if r.imposterIds.contains id then
    if caught then 0 else 3
  else
    (if isCorrectVote then 2 else if myVote.isSome then -1 else 0) +
    (match votedOutId with
     | none => 0
     | some w =>
         if myVote = some w ∧
            ((lookupEntry (voteCounts r.votes) w).getD 0) ≥ majorityCount
         then 1 else 0)

/-- The refined-scoring `calculateResults`: every player's score moves by
`refinedGain`, which also becomes `lastScoreGain`; outcome message,
history entry and phase change are as in the flat variant. -/
def calculateResultsRefined (dateStr : String) (duration now : Nat) (r : Room) : Room :=
  let ps2 := r.players.map (fun e =>
    (e.1, { e.2 with score := e.2.score + refinedGain r e.1,
                     lastScoreGain := refinedGain r e.1 }))
  let winMsg := winMessage r
  { r with
      state := Phase.result,
      players := ps2,
      historyLog := r.historyLog ++
        [{ date := dateStr, imposters := imposterNames r, word := r.word,
           result := winMsg, duration := duration }],
      chats := r.chats ++ [{ sender := "System", msg := winMsg, time := now }] }

/-! ### Authentication (`handleAuth`)

The profile document of the `users` collection.  On signup the handler
creates the document with `pass: btoa(password)`; on login it refreshes
the same field.  Passwords are byte strings (`btoa` input).
-/

/-- A persisted user profile document. -/
structure UserProfile where
  name : String
  history : List String
  pass : List Char
  deriving Repr, DecidableEq

/-- The `setDoc` of the signup branch of `handleAuth`. -/
def signupProfile (nameInput : String) (password : List Nat) : UserProfile :=
  { name := nameInput, history := [nameInput], pass := btoa password }

/-- The `updateDoc` of the login branch of `handleAuth`. -/
def loginRefresh (p : UserProfile) (password : List Nat) : UserProfile :=
  { p with pass := btoa password }

/-! ### PeerJS host-mesh variant (`GameManager`)

The `RoomState` owned by the `GameManager` singleton, and `handleMessage`,
the only mutator.  A replica (`isHost = false`) replaces its state on
`STATE_SYNC` and ignores every `ACTION`; the host applies game rules.
-/

/-- A player entry of the mesh variant. -/
structure GMPlayer where
  id : String
  name : String
  isHost : Bool
  score : Int
  passedCount : Nat
  votedFor : Option String
  deriving Repr, DecidableEq

/-- The mesh variant's phase field. -/
inductive GMPhase
  | LOBBY
  | ROLES
  | PLAYING
  | VOTING
  | RESULTS
  deriving Repr, DecidableEq

/-- One chat message of the mesh variant. -/
structure GMMessage where
  sender : String
  text : String
  time : Nat
  deriving Repr, DecidableEq

/-- The mesh variant's `RoomState`. -/
structure GMState where
  roomId : String
  state : GMPhase
  players : List GMPlayer
  messages : List GMMessage
  imposterId : Option String
  secretWord : String
  currentTurnId : Option String
  round : Nat
  maxRounds : Nat
  startTime : Nat
  deriving Repr, DecidableEq

/-- The payload bag of an `ACTION` network message (`any` in the source;
only these fields are read). -/
structure Payload where
  name : String := ""
  text : String := ""
  word : String := ""
  targetId : String := ""
  deriving Repr, DecidableEq

/-- A `NetworkMessage`. -/
inductive NetMsg
  | stateSync (st : GMState)
  | chat (text senderId : String)
  | action (act : String) (payload : Payload) (senderId : String)
  deriving DecidableEq

/-- `GameManager.startGame`: store the word, enter `ROLES`, draw the
impostor at a random index (`rnd` parameter), point the turn at the first
player, reset passes and votes.  An empty player list would crash the
source on `players[imposterIndex].id`; the model leaves the state
unchanged there. -/
def gmStartGame (word : String) (rnd now : Nat) (st : GMState) : GMState :=
  match st.players.get? (rnd % st.players.length) with
  | none => st
  | some imposter =>
      { st with
          secretWord := word,
          state := GMPhase.ROLES,
          imposterId := some imposter.id,
          currentTurnId := (st.players.head?).map GMPlayer.id,
          startTime := now,
          players := st.players.map (fun p => { p with passedCount := 0, votedFor := none }) }

/-- Update the first player whose id matches, as the in-place mutation of
the found element does in the source. -/
def updFirst (ps : List GMPlayer) (pid : String) (f : GMPlayer → GMPlayer) :
    List GMPlayer :=
  match ps with
  | [] => []
  | q :: rest => if q.id = pid then f q :: rest else q :: updFirst rest pid f

/-- `GameManager.nextTurn`: reset all passes, then move the turn pointer to
the next player, rolling into the next round or into `VOTING` after the
last round.  `findIndex` yields `-1` when the current turn id is absent,
so the index arithmetic is over `Int` as in JS. -/
def gmNextTurn (st : GMState) : GMState :=
  let idx : Int :=
    ((st.players.findIdx? (fun p => some p.id = st.currentTurnId)).map
      (fun i => (i : Int))).getD (-1)
  let cleared := st.players.map (fun p => { p with passedCount := 0 })
  let st1 := { st with players := cleared }
  if idx ≥ (st.players.length : Int) - 1 then
    if st.round ≥ st.maxRounds then { st1 with state := GMPhase.VOTING }
    else { st1 with round := st.round + 1,
                    currentTurnId := (cleared.head?).map GMPlayer.id }
  else { st1 with currentTurnId := (cleared.get? (idx + 1).toNat).map GMPlayer.id }

/-- `GameManager.calculateScores`: `+10` to a non-impostor who voted for
the impostor, `+5` to the impostor if they voted at all. -/
def gmCalculateScores (st : GMState) : GMState :=
  { st with players := st.players.map (fun p =>
      let s1 := if some p.id ≠ st.imposterId ∧ p.votedFor = st.imposterId ∧ p.votedFor ≠ none
                then p.score + 10 else p.score
      let s2 := if some p.id = st.imposterId ∧ p.votedFor ≠ none then s1 + 5 else s1
      { p with score := s2 }) }

/-- The `PASS_TURN` branch of `handleMessage`: bump the current
turn-holder's `passedCount` (the sender and `targetId` are ignored, and
repeated passes from one sender are not deduplicated); at two passes the
turn advances. -/
def gmPassTurn (st : GMState) : GMState :=
  match st.players.find? (fun p => some p.id = st.currentTurnId) with
  | none => st
  | some p =>
      let newCount := p.passedCount + 1
      let bumped := updFirst st.players p.id (fun q => { q with passedCount := newCount })
      let st1 := { st with players := bumped }
      if newCount ≥ 2 then gmNextTurn st1 else st1

/-- The `VOTE` branch of `handleMessage`: record the sender's vote; once
every player has voted, score and enter `RESULTS`. -/
def gmVote (senderId targetId : String) (st : GMState) : GMState :=
  let voted := updFirst st.players senderId (fun p => { p with votedFor := some targetId })
  let st1 := { st with players := voted }
  if st1.players.all (fun p => p.votedFor.isSome) then
    let st2 := gmCalculateScores st1
    { st2 with state := GMPhase.RESULTS }
  else st1

/-- `GameManager.handleMessage`, the single entry point of the mesh
variant: replicas only ever accept `STATE_SYNC`; every `ACTION` is applied
if and only if the receiving process is the host. -/
def handleMessage (rnd now : Nat) (isHost : Bool) (st : GMState) (msg : NetMsg) : GMState :=
  match msg with
  | NetMsg.stateSync s => s
  | NetMsg.chat _ _ => st
  | NetMsg.action act payload senderId =>
      if isHost then
        if act = "JOIN" then
          if (st.players.find? (fun p => p.id = senderId)).isSome then st
          else { st with players := st.players ++
            [{ id := senderId, name := payload.name, isHost := false, score := 0,
               passedCount := 0, votedFor := none }] }
        else if act = "CHAT" then
          { st with messages := st.messages ++
            [{ sender := payload.name, text := payload.text, time := now }] }
        else if act = "START_GAME" then gmStartGame payload.word rnd now st
        else if act = "PASS_TURN" then gmPassTurn st
        else if act = "VOTE" then gmVote senderId payload.targetId st
        else st
      else st

/-! ### Semantics of the vote tally

`voteCounts` stores, for each target that received at least one vote, the
number of votes cast for it; the winner scan returns the unique target
with strictly more votes than every other target, or `none` on a tie.
-/

/-- Targets of the votes mapping, in order. -/
def voteTargets (votes : List (String × String)) : List String := votes.map Prod.snd

/-- Occurrences of `u` in a target list. -/
def countTargets (ts : List String) (u : String) : Nat :=
  (ts.filter (fun x => x = u)).length

theorem countVotesFor_eq (votes : List (String × String)) (u : String) :
    countVotesFor votes u = countTargets (voteTargets votes) u := by
  unfold countVotesFor countTargets voteTargets
  rw [List.filter_map]
  simp [Function.comp_def]

theorem voteCounts_eq_foldl (votes : List (String × String)) :
    voteCounts votes = (voteTargets votes).foldl tallyStep [] := by
  unfold voteCounts voteTargets
  rw [List.foldl_map]

theorem lookup_none_of_not_mem_keys {α : Type} (ps : List (String × α)) (u : String)
    (h : u ∉ keysOf ps) : lookupEntry ps u = none := by
  cases hl : lookupEntry ps u with
  | none => rfl
  | some v => exact absurd (mem_keys_of_lookupEntry_eq_some ps u v hl) h

theorem mem_of_lookupEntry_eq_some {α : Type} (ps : List (String × α)) (u : String)
    (v : α) (h : lookupEntry ps u = some v) : (u, v) ∈ ps := by
  induction ps with
  | nil => simp [lookupEntry] at h
  | cons e rest ih =>
      by_cases he : e.1 = u
      · simp only [lookupEntry, if_pos he] at h
        obtain rfl : e.2 = v := Option.some.inj h
        exact List.mem_cons.mpr (Or.inl (by rw [← he]))
      · simp only [lookupEntry, if_neg he] at h
        exact List.mem_cons.mpr (Or.inr (ih h))

theorem keysOf_tallyMap (acc : List (String × Nat)) (t : String) :
    keysOf (acc.map (fun e => (e.1, if e.1 = t then e.2 + 1 else e.2))) = keysOf acc := by
  induction acc with
  | nil => rfl
  | cons e rest _ => simp [keysOf]

theorem lookup_tallyMap (acc : List (String × Nat)) (t u : String) :
    lookupEntry (acc.map (fun e => (e.1, if e.1 = t then e.2 + 1 else e.2))) u =
      (lookupEntry acc u).map (fun v => if u = t then v + 1 else v) := by
  induction acc with
  | nil => rfl
  | cons e rest ih =>
      by_cases he : e.1 = u
      · subst he
        simp [lookupEntry]
      · simp only [List.map_cons, lookupEntry, if_neg he]
        exact ih

theorem keys_tallyStep (acc : List (String × Nat)) (t u : String) :
    u ∈ keysOf (tallyStep acc t) ↔ u ∈ keysOf acc ∨ u = t := by
  unfold tallyStep
  by_cases ht : t ∈ keysOf acc
  · rw [if_pos ht, keysOf_tallyMap]
    constructor
    · exact fun h => Or.inl h
    · rintro (h | h)
      · exact h
      · exact h ▸ ht
  · rw [if_neg ht]
    simp [keysOf]

theorem getD_lookup_tallyStep (acc : List (String × Nat)) (t u : String) :
    (lookupEntry (tallyStep acc t) u).getD 0 =
      (lookupEntry acc u).getD 0 + (if u = t then 1 else 0) := by
  unfold tallyStep
  by_cases ht : t ∈ keysOf acc
  · rw [if_pos ht, lookup_tallyMap acc t u]
    by_cases hu : u = t
    · subst hu
      obtain ⟨v, hv⟩ := lookupEntry_eq_some_of_mem_keys acc u ht
      simp [hv]
    · cases hl : lookupEntry acc u with
      | none => simp [hu]
      | some v => simp [hu]
  · rw [if_neg ht]
    by_cases hu : u = t
    · subst hu
      rw [lookup_append_single_same acc u 1 ht, lookup_none_of_not_mem_keys acc u ht]
      simp
    · rw [lookup_append_single_other acc t u 1 (fun hh => hu hh.symm)]
      simp [hu]

theorem countTargets_cons (t : String) (rest : List String) (u : String) :
    countTargets (t :: rest) u = (if t = u then 1 else 0) + countTargets rest u := by
  unfold countTargets
  by_cases h : t = u
  · simp [List.filter_cons, h]
    omega
  · simp [List.filter_cons, h]

/-- The tally after folding an arbitrary target list into an arbitrary
accumulator. -/
theorem lookup_tally_foldl (ts : List String) :
    ∀ (acc : List (String × Nat)) (u : String),
      lookupEntry (ts.foldl tallyStep acc) u =
        if u ∈ keysOf acc ∨ u ∈ ts
        then some ((lookupEntry acc u).getD 0 + countTargets ts u)
        else none := by
  induction ts with
  | nil =>
      intro acc u
      by_cases h : u ∈ keysOf acc
      · obtain ⟨v, hv⟩ := lookupEntry_eq_some_of_mem_keys acc u h
        simp [countTargets, h, hv]
      · simp [countTargets, h, lookup_none_of_not_mem_keys acc u h]
  | cons t rest ih =>
      intro acc u
      rw [List.foldl_cons, ih (tallyStep acc t) u]
      have hk := keys_tallyStep acc t u
      have hg := getD_lookup_tallyStep acc t u
      have hc := countTargets_cons t rest u
      by_cases h1 : u = t
      · subst h1
        simp only [if_pos rfl] at hg
        simp only [if_pos rfl] at hc
        have hmem : u ∈ keysOf (tallyStep acc u) := hk.mpr (Or.inr rfl)
        have hl : u ∈ keysOf acc ∨ u ∈ u :: rest := Or.inr (by simp)
        rw [if_pos (Or.inl hmem), if_pos hl, hg, hc]
        congr 1
        omega
      · have hne : ¬ t = u := fun hh => h1 hh.symm
        simp only [if_neg h1, add_zero] at hg
        simp only [if_neg hne, zero_add] at hc
        rw [hg, hc]
        have hcond : (u ∈ keysOf (tallyStep acc t) ∨ u ∈ rest) ↔
            (u ∈ keysOf acc ∨ u ∈ t :: rest) := by
          rw [hk]
          constructor
          · rintro ((h | h) | h)
            · exact Or.inl h
            · exact absurd h h1
            · exact Or.inr (by simp [h])
          · rintro (h | h)
            · exact Or.inl (Or.inl h)
            · rcases List.mem_cons.mp h with h | h
              · exact absurd h h1
              · exact Or.inr h
        by_cases hcase : u ∈ keysOf acc ∨ u ∈ t :: rest
        · rw [if_pos (hcond.mpr hcase), if_pos hcase]
        · rw [if_neg (fun hh => hcase (hcond.mp hh)), if_neg hcase]

/-- Lookup semantics of `voteCounts`: the tally of `t` is the number of
votes for `t`, present exactly when someone voted for `t`. -/
theorem lookup_voteCounts (votes : List (String × String)) (u : String) :
    lookupEntry (voteCounts votes) u =
      if u ∈ voteTargets votes then some (countVotesFor votes u) else none := by
  rw [voteCounts_eq_foldl, lookup_tally_foldl (voteTargets votes) [] u,
      countVotesFor_eq]
  simp [keysOf, lookupEntry]

theorem keys_voteCounts (votes : List (String × String)) (u : String) :
    u ∈ keysOf (voteCounts votes) ↔ u ∈ voteTargets votes := by
  constructor
  · intro h
    obtain ⟨v, hv⟩ := lookupEntry_eq_some_of_mem_keys _ _ h
    rw [lookup_voteCounts] at hv
    by_cases hm : u ∈ voteTargets votes
    · exact hm
    · rw [if_neg hm] at hv
      cases hv
  · intro h
    have := lookup_voteCounts votes u
    rw [if_pos h] at this
    exact mem_keys_of_lookupEntry_eq_some _ _ _ this

theorem nodup_keys_tallyStep (acc : List (String × Nat)) (t : String)
    (h : (keysOf acc).Nodup) : (keysOf (tallyStep acc t)).Nodup := by
  unfold tallyStep
  by_cases ht : t ∈ keysOf acc
  · rw [if_pos ht, keysOf_tallyMap]
    exact h
  · rw [if_neg ht]
    simp only [keysOf, List.map_append, List.map_cons, List.map_nil]
    rw [List.nodup_append]
    exact ⟨h, List.nodup_singleton t, by simpa [keysOf] using ht⟩

theorem nodup_keys_voteCounts (votes : List (String × String)) :
    (keysOf (voteCounts votes)).Nodup := by
  rw [voteCounts_eq_foldl]
  generalize voteTargets votes = ts
  have master : ∀ (ts : List String) (acc : List (String × Nat)),
      (keysOf acc).Nodup → (keysOf (ts.foldl tallyStep acc)).Nodup := by
    intro ts
    induction ts with
    | nil => intro acc h; exact h
    | cons t rest ih => intro acc h; exact ih _ (nodup_keys_tallyStep acc t h)
  exact master ts [] (by simp [keysOf])

theorem lookup_nodup_entry {α : Type} (ps : List (String × α)) (u : String) (v : α)
    (hnd : (keysOf ps).Nodup) (hmem : (u, v) ∈ ps) : lookupEntry ps u = some v := by
  induction ps with
  | nil => cases hmem
  | cons e rest ih =>
      rcases List.mem_cons.mp hmem with h | h
      · rw [← h]
        simp [lookupEntry]
      · have hu : u ∈ keysOf rest := by
          simp [keysOf]
          exact ⟨v, by simpa using h⟩
        have hnd2 : (keysOf rest).Nodup := by
          simp only [keysOf, List.map_cons] at hnd
          exact (List.nodup_cons.mp hnd).2
        have hne : e.1 ≠ u := by
          intro hcon
          simp only [keysOf, List.map_cons, List.nodup_cons] at hnd
          exact hnd.1 (hcon ▸ (by simpa [keysOf] using hu))
        simp only [lookupEntry, if_neg hne]
        exact ih hnd2 h

theorem countTargets_pos (ts : List String) (u : String) (h : u ∈ ts) :
    1 ≤ countTargets ts u := by
  induction ts with
  | nil => cases h
  | cons t rest ih =>
      rw [countTargets_cons]
      by_cases htu : t = u
      · simp [htu]
      · have : u ∈ rest := by
          rcases List.mem_cons.mp h with h1 | h1
          · exact absurd h1.symm htu
          · exact h1
        have := ih this
        omega

theorem voteCounts_entry_pos (votes : List (String × String)) (e : String × Nat)
    (he : e ∈ voteCounts votes) : 1 ≤ e.2 := by
  have hl : lookupEntry (voteCounts votes) e.1 = some e.2 := by
    have := lookup_nodup_entry (voteCounts votes) e.1 e.2 (nodup_keys_voteCounts votes)
    exact this (by simpa using he)
  rw [lookup_voteCounts] at hl
  by_cases hm : e.1 ∈ voteTargets votes
  · rw [if_pos hm] at hl
    have heq : countVotesFor votes e.1 = e.2 := Option.some.inj hl
    have hpos : 1 ≤ countVotesFor votes e.1 := by
      rw [countVotesFor_eq]
      exact countTargets_pos _ _ hm
    omega
  · rw [if_neg hm] at hl
    cases hl

/-- Entries of `voteCounts` are exactly the pairs `(target, vote count)`. -/
theorem voteCounts_entry_eq (votes : List (String × String)) (e : String × Nat)
    (he : e ∈ voteCounts votes) :
    e.1 ∈ voteTargets votes ∧ e.2 = countVotesFor votes e.1 := by
  have hl : lookupEntry (voteCounts votes) e.1 = some e.2 := by
    have := lookup_nodup_entry (voteCounts votes) e.1 e.2 (nodup_keys_voteCounts votes)
    exact this (by simpa using he)
  rw [lookup_voteCounts] at hl
  by_cases hm : e.1 ∈ voteTargets votes
  · rw [if_pos hm] at hl
    exact ⟨hm, (Option.some.inj hl).symm⟩
  · rw [if_neg hm] at hl
    cases hl

theorem voteCounts_mem_of_target (votes : List (String × String)) (u : String)
    (h : u ∈ voteTargets votes) : (u, countVotesFor votes u) ∈ voteCounts votes := by
  have := lookup_voteCounts votes u
  rw [if_pos h] at this
  exact mem_of_lookupEntry_eq_some _ _ _ this

/-! ### The winner scan -/

/-- Maximum tally among the entries (0 when empty). -/
def maxCount (es : List (String × Nat)) : Nat :=
  es.foldr (fun e m => max e.2 m) 0

/-- `t` is the unique strict winner among the entries. -/
def UniqueMax (es : List (String × Nat)) (t : String) : Prop :=
  (t, maxCount es) ∈ es ∧ ∀ e ∈ es, e.1 ≠ t → e.2 < maxCount es

theorem le_maxCount (es : List (String × Nat)) (e : String × Nat) (he : e ∈ es) :
    e.2 ≤ maxCount es := by
  induction es with
  | nil => cases he
  | cons f rest ih =>
      rcases List.mem_cons.mp he with h | h
      · subst h
        exact le_max_left _ _
      · exact le_trans (ih h) (le_max_right _ _)

theorem maxCount_le (es : List (String × Nat)) (b : Nat) (h : ∀ e ∈ es, e.2 ≤ b) :
    maxCount es ≤ b := by
  induction es with
  | nil => exact Nat.zero_le b
  | cons f rest ih =>
      simp only [maxCount, List.foldr_cons]
      exact max_le (h f (by simp)) (ih (fun e he => h e (by simp [he])))

theorem maxCount_append_single (es : List (String × Nat)) (u : String) (c : Nat) :
    maxCount (es ++ [(u, c)]) = max (maxCount es) c := by
  induction es with
  | nil => simp [maxCount]
  | cons f rest ih =>
      simp only [maxCount, List.cons_append, List.foldr_cons] at ih ⊢
      rw [ih]
      exact (max_assoc _ _ _).symm

theorem maxCount_cons (f : String × Nat) (rest : List (String × Nat)) :
    maxCount (f :: rest) = max f.2 (maxCount rest) := rfl

theorem maxCount_attained (es : List (String × Nat)) (hne : es ≠ []) :
    ∃ e ∈ es, e.2 = maxCount es := by
  induction es with
  | nil => exact absurd rfl hne
  | cons f rest ih =>
      by_cases hr : rest = []
      · subst hr
        exact ⟨f, by simp, by simp [maxCount]⟩
      · obtain ⟨e, he, hev⟩ := ih hr
        by_cases hcmp : f.2 ≤ maxCount rest
        · exact ⟨e, by simp [he], by rw [hev, maxCount_cons, max_eq_right hcmp]⟩
        · exact ⟨f, by simp, by rw [maxCount_cons, max_eq_left (le_of_not_le hcmp)]⟩

/-- What the running accumulator of the winner scan means after the entries
in `done` have been processed. -/
def GoodAcc (done : List (String × Nat)) (acc : Nat × Option String) : Prop :=
  acc.1 = maxCount done ∧
  (∀ t, acc.2 = some t → UniqueMax done t) ∧
  (acc.2 = none → ∀ t, ¬ UniqueMax done t)

theorem goodAcc_step (done : List (String × Nat)) (acc : Nat × Option String)
    (u : String) (c : Nat) (hg : GoodAcc done acc) (hfresh : u ∉ keysOf done)
    (hcpos : 1 ≤ c) :
    GoodAcc (done ++ [(u, c)]) (votedOutStep acc (u, c)) := by
  obtain ⟨hmax, hsome, hnone⟩ := hg
  have hMC : maxCount (done ++ [(u, c)]) = max (maxCount done) c :=
    maxCount_append_single done u c
  unfold votedOutStep
  by_cases h1 : c > acc.1
  · rw [if_pos h1]
    rw [hmax] at h1
    have hM : maxCount (done ++ [(u, c)]) = c := by rw [hMC]; omega
    refine ⟨hM.symm, ?_, ?_⟩
    · intro t ht
      obtain rfl : u = t := Option.some.inj ht
      constructor
      · rw [hM]
        exact List.mem_append.mpr (Or.inr (by simp))
      · intro e he hne
        rw [hM]
        rcases List.mem_append.mp he with h | h
        · have := le_maxCount done e h
          omega
        · simp at h
          exact absurd (congrArg Prod.fst h) (by simpa using hne)
    · intro hcon
      cases hcon
  · rw [if_neg h1]
    by_cases h2 : c = acc.1
    · rw [if_pos h2]
      rw [hmax] at h2
      have hM : maxCount (done ++ [(u, c)]) = maxCount done := by rw [hMC]; omega
      have hdne : done ≠ [] := by
        intro hnil
        subst hnil
        simp [maxCount] at h2
        omega
      obtain ⟨e0, he0, he0v⟩ := maxCount_attained done hdne
      refine ⟨?_, ?_, ?_⟩
      · show acc.1 = maxCount (done ++ [(u, c)])
        rw [hM]
        exact hmax
      · intro t ht
        exact Option.noConfusion ht
      intro _ t hcon
      obtain ⟨hin, hstrict⟩ := hcon
      have he0ne : e0.1 ≠ u := by
        intro hcon2
        apply hfresh
        rw [← hcon2]
        simp [keysOf]
        exact ⟨e0.2, by simpa using he0⟩
      by_cases htu : t = u
      · subst htu
        have := hstrict e0 (List.mem_append.mpr (Or.inl he0)) (by intro hx; exact he0ne hx)
        rw [hM] at this
        omega
      · have hukey : (u, c).1 ≠ t := by simpa using fun hx => htu hx.symm
        have := hstrict (u, c) (List.mem_append.mpr (Or.inr (by simp))) hukey
        rw [hM] at this
        omega
    · rw [if_neg h2]
      have hlt : c < acc.1 := by omega
      rw [hmax] at hlt
      have hM : maxCount (done ++ [(u, c)]) = maxCount done := by rw [hMC]; omega
      refine ⟨?_, ?_, ?_⟩
      · show acc.1 = maxCount (done ++ [(u, c)])
        rw [hM]
        exact hmax
      · intro t ht
        obtain ⟨hin, hstrict⟩ := hsome t ht
        constructor
        · rw [hM]
          exact List.mem_append.mpr (Or.inl hin)
        · intro e he hne
          rw [hM]
          rcases List.mem_append.mp he with h | h
          · exact hstrict e h hne
          · simp at h
            subst h
            exact hlt
      · intro hn t hcon
        obtain ⟨hin, hstrict⟩ := hcon
        rw [hM] at hin
        rcases List.mem_append.mp hin with h | h
        · apply hnone hn t
          refine ⟨h, ?_⟩
          intro e he hne
          have := hstrict e (List.mem_append.mpr (Or.inl he)) hne
          rw [hM] at this
          exact this
        · simp at h
          omega

theorem goodAcc_foldl (es : List (String × Nat)) :
    ∀ (done : List (String × Nat)) (acc : Nat × Option String),
      GoodAcc done acc → (keysOf (done ++ es)).Nodup → (∀ e ∈ done ++ es, 1 ≤ e.2) →
      GoodAcc (done ++ es) (es.foldl votedOutStep acc) := by
  induction es with
  | nil =>
      intro done acc hg _ _
      simpa using hg
  | cons e rest ih =>
      intro done acc hg hnd hpos
      have hfresh : e.1 ∉ keysOf done := by
        intro hcon
        have hsplit : keysOf (done ++ e :: rest) = keysOf done ++ (e.1 :: keysOf rest) := by
          simp [keysOf]
        rw [hsplit, List.nodup_append] at hnd
        exact hnd.2.2 hcon (by simp)
      have hstep := goodAcc_step done acc e.1 e.2 hg hfresh (hpos e (by simp))
      have hassoc : done ++ e :: rest = (done ++ [e]) ++ rest := by simp
      rw [List.foldl_cons, hassoc]
      rw [hassoc] at hnd hpos
      exact ih (done ++ [e]) (votedOutStep acc e) hstep hnd hpos

/-- The accumulator invariant holds of the completed winner scan. -/
theorem goodAcc_votedOut (votes : List (String × String)) :
    GoodAcc (voteCounts votes) ((voteCounts votes).foldl votedOutStep (0, none)) := by
  have hinit : GoodAcc [] ((0 : Nat), (none : Option String)) := by
    refine ⟨by simp [maxCount], ?_, ?_⟩
    · intro t ht
      exact Option.noConfusion ht
    · intro _ t hcon
      exact absurd hcon.1 (List.not_mem_nil _)
  have hres := goodAcc_foldl (voteCounts votes) [] (0, none) hinit
    (by simpa using nodup_keys_voteCounts votes)
    (by intro e he; exact voteCounts_entry_pos votes e (by simpa using he))
  simpa using hres

/-- Full characterization of the winner scan: a target is voted out exactly
when it received strictly more votes than every other target. -/
theorem votedOut_eq_some_iff (votes : List (String × String)) (t : String) :
    votedOut votes = some t ↔
      t ∈ voteTargets votes ∧
      ∀ u ∈ voteTargets votes, u ≠ t → countVotesFor votes u < countVotesFor votes t := by
  obtain ⟨hmax, hsome, hnone⟩ := goodAcc_votedOut votes
  constructor
  · intro h
    obtain ⟨hin, hstrict⟩ := hsome t h
    have hent := voteCounts_entry_eq votes (t, maxCount (voteCounts votes)) hin
    refine ⟨hent.1, ?_⟩
    intro u hu hne
    have hmem := voteCounts_mem_of_target votes u hu
    have hlt := hstrict (u, countVotesFor votes u) hmem (by simpa using hne)
    have hct : countVotesFor votes t = maxCount (voteCounts votes) := hent.2.symm
    simp only [] at hlt
    omega
  · rintro ⟨hmem, hwin⟩
    have hM : maxCount (voteCounts votes) = countVotesFor votes t := by
      apply le_antisymm
      · apply maxCount_le
        intro e he
        have hent := voteCounts_entry_eq votes e he
        by_cases het : e.1 = t
        · rw [hent.2, het]
        · have := hwin e.1 hent.1 het
          omega
      · exact le_maxCount _ _ (voteCounts_mem_of_target votes t hmem)
    have hUM : UniqueMax (voteCounts votes) t := by
      constructor
      · rw [hM]
        exact voteCounts_mem_of_target votes t hmem
      · intro e he hne
        have hent := voteCounts_entry_eq votes e he
        have := hwin e.1 hent.1 hne
        rw [hM]
        omega
    cases hv : votedOut votes with
    | none => exact absurd hUM (hnone hv t)
    | some w =>
        obtain ⟨hinw, hstrictw⟩ := hsome w hv
        by_cases hwt : w = t
        · rw [hwt]
        · have hkey : (t, maxCount (voteCounts votes)).1 ≠ w := by
            simpa using fun hx => hwt hx.symm
          have := hstrictw (t, maxCount (voteCounts votes)) hUM.1 hkey
          simp only [] at this
          omega

/-- The tie direction: when no strict winner exists the scan returns
`none`. -/
theorem votedOut_eq_none_iff (votes : List (String × String)) :
    votedOut votes = none ↔
      ∀ t ∈ voteTargets votes, ∃ u ∈ voteTargets votes,
        u ≠ t ∧ countVotesFor votes t ≤ countVotesFor votes u := by
  constructor
  · intro h t ht
    by_contra hcon
    push_neg at hcon
    have : votedOut votes = some t := by
      rw [votedOut_eq_some_iff]
      refine ⟨ht, ?_⟩
      intro u hu hne
      have := hcon u hu hne
      omega
    rw [h] at this
    cases this
  · intro h
    cases hv : votedOut votes with
    | none => rfl
    | some w =>
        have hw := (votedOut_eq_some_iff votes w).mp hv
        obtain ⟨u, hu, hune, hle⟩ := h w hw.1
        have := hw.2 u hu hune
        omega

/-! ### Score-update lemmas -/

theorem lookup_branchMap {α : Type} (ps : List (String × α)) (u : String)
    (P : String → Bool) (g : α → α) :
    lookupEntry (ps.map (fun e => if P e.1 then e else (e.1, g e.2))) u =
      (if P u then lookupEntry ps u else (lookupEntry ps u).map g) := by
  induction ps with
  | nil => cases hP : P u <;> simp [lookupEntry, hP]
  | cons e rest ih =>
      have hhead : ((if P e.1 then e else (e.1, g e.2)) : String × α).1 = e.1 := by
        by_cases hP : P e.1 <;> simp [hP]
      have hval : ((if P e.1 then e else (e.1, g e.2)) : String × α).2
          = (if P e.1 then e.2 else g e.2) := by
        by_cases hP : P e.1 <;> simp [hP]
      simp only [List.map_cons, lookupEntry, hhead, hval]
      by_cases he : e.1 = u
      · subst he
        by_cases hP : P e.1 <;> simp [lookupEntry, hP]
      · rw [if_neg he, ih]
        simp [he]

theorem lookup_awardMap {α : Type} (ps : List (String × α)) (i u : String) (g : α → α) :
    lookupEntry (ps.map (fun e => if e.1 = i then (e.1, g e.2) else e)) u =
      (if u = i then (lookupEntry ps u).map g else lookupEntry ps u) := by
  induction ps with
  | nil => by_cases hu : u = i <;> simp [lookupEntry, hu]
  | cons e rest ih =>
      have hhead : ((if e.1 = i then (e.1, g e.2) else e) : String × α).1 = e.1 := by
        by_cases hei : e.1 = i <;> simp [hei]
      have hval : ((if e.1 = i then (e.1, g e.2) else e) : String × α).2
          = (if e.1 = i then g e.2 else e.2) := by
        by_cases hei : e.1 = i <;> simp [hei]
      simp only [List.map_cons, lookupEntry, hhead, hval]
      by_cases he : e.1 = u
      · subst he
        by_cases hei : e.1 = i <;> simp [lookupEntry, hei]
      · rw [if_neg he, ih]
        simp [he]

theorem lookup_awardFold {α : Type} (g : α → α) (ids : List String) :
    ∀ (ps : List (String × α)) (u : String), ids.Nodup →
      lookupEntry
        (ids.foldl (fun ps i => ps.map (fun e => if e.1 = i then (e.1, g e.2) else e)) ps) u =
      (if u ∈ ids then (lookupEntry ps u).map g else lookupEntry ps u) := by
  induction ids with
  | nil =>
      intro ps u _
      simp
  | cons i rest ih =>
      intro ps u hnd
      rw [List.foldl_cons, ih _ u (List.nodup_cons.mp hnd).2, lookup_awardMap]
      by_cases hur : u ∈ rest
      · have hui : ¬ u = i := fun hcon => (List.nodup_cons.mp hnd).1 (hcon ▸ hur)
        rw [if_pos hur, if_neg hui, if_pos (by simp [hur])]
      · by_cases hui : u = i
        · rw [if_neg hur, if_pos hui, if_pos (by simp [hui])]
        · rw [if_neg hur, if_neg hui,
             if_neg (by simp [hui, hur])]

theorem nodup_keys_setEntry {α : Type} (ps : List (String × α)) (k : String) (v : α)
    (h : (keysOf ps).Nodup) : (keysOf (setEntry ps k v)).Nodup := by
  rw [keysOf_setEntry]
  by_cases hk : k ∈ keysOf ps
  · rw [if_pos hk]
    exact h
  · rw [if_neg hk]
    rw [List.nodup_append]
    exact ⟨h, List.nodup_singleton k, by simpa using hk⟩

/-! ### Concrete rooms used by the witnesses and counterexamples -/

/-- A two-player room hosted by `host`, in the voting phase. -/
def demoRoomC1 : Room :=
  { id := "R1", hostId := "host", state := Phase.voting, category := "Food",
    word := "Pizza", imposterIds := ["g1"], imposterCount := 1, round := 3,
    maxRounds := 3,
    players := [("host", freshPlayer "Hana"), ("g1", freshPlayer "Guest")],
    turnOrder := ["host", "g1"], currentTurnIndex := 0, votes := [], chats := [],
    historyLog := [] }

/-! ### Claim C10 -/

/-- C10: on signup and on login, `handleAuth` stores the password base64
encoded under `pass`, and the plaintext is recoverable from the stored
profile by decoding. -/
theorem claim_C10 (nameInput : String) (password : List Nat) (p : UserProfile)
    (h : ∀ b ∈ password, b < 256) :
    (signupProfile nameInput password).pass = btoa password ∧
    (loginRefresh p password).pass = btoa password ∧
    atob (signupProfile nameInput password).pass = password ∧
    atob (loginRefresh p password).pass = password :=
  ⟨rfl, rfl, atob_btoa password h, atob_btoa password h⟩

theorem claim_C10_witness :
    (signupProfile "Alice" [112, 119]).pass = btoa [112, 119] ∧
    atob (signupProfile "Alice" [112, 119]).pass = [112, 119] := by
  have h := claim_C10 "Alice" [112, 119]
    { name := "", history := [], pass := [] } (by decide)
  exact ⟨h.1, h.2.2.1⟩

/-! ### Claim C1 -/

/-- C1 counterexample: in the document-store variant a non-host participant
mutates the canonical snapshot directly: a guest's `castVote` changes the
room document even though the guest is not the host. -/
theorem claim_C1_counterexample :
    ("g1" : String) ≠ demoRoomC1.hostId ∧
    castVote "g1" "host" demoRoomC1 ≠ demoRoomC1 ∧
    lookupEntry (castVote "g1" "host" demoRoomC1).votes "g1" = some "host" := by
  refine ⟨by decide, ?_, by decide⟩
  intro hcon
  have := congrArg Room.votes hcon
  revert this
  decide

/-- C1 amended: in the peer-mesh variant the single-writer property does
hold: a non-host `GameManager` never mutates its state on any `ACTION`
intent, whatever the action, payload and sender. -/
theorem claim_C1_amended (rnd now : Nat) (st : GMState) (act : String)
    (payload : Payload) (sender : String) :
    handleMessage rnd now false st (NetMsg.action act payload sender) = st := rfl

/-! ### Claim C8 -/

/-- A three-player room in the playing phase with scores, chats and
history. -/
def demoRoomC8 : Room :=
  { id := "R8", hostId := "A", state := Phase.playing, category := "Food",
    word := "Taco", imposterIds := ["B"], imposterCount := 1, round := 2,
    maxRounds := 3,
    players := [("A", { freshPlayer "Ana" with score := 30 }),
                ("B", { freshPlayer "Bo" with score := 20 }),
                ("C", { freshPlayer "Cy" with score := 10 })],
    turnOrder := ["B", "A", "C"], currentTurnIndex := 1,
    votes := [("A", "B")],
    chats := [{ sender := "System", msg := "Game Started!", time := 5 }],
    historyLog := [{ date := "d", imposters := "Bo", word := "Udon",
                     result := "w", duration := 9 }] }

/-- C8 counterexample: `resetGame` is not restricted to the result phase
(nor to the host): applied to a room in the middle of the playing phase it
still takes effect and moves the phase to the lobby. -/
theorem claim_C8_counterexample :
    demoRoomC8.state = Phase.playing ∧
    resetGame demoRoomC8 ≠ demoRoomC8 ∧
    (resetGame demoRoomC8).state = Phase.lobby := by
  refine ⟨by decide, ?_, by decide⟩
  intro hcon
  have := congrArg Room.state hcon
  revert this
  decide

/-- C8 amended: `resetGame` unconditionally (it has no host check and no
phase check; the UI offers it only to the host on the result screen)
returns the phase to the lobby and clears round, votes, impostor set,
word, turn order and turn pointer, while the player records (hence every
cumulative score) and the chat and history logs are unchanged. -/
theorem claim_C8_amended (r : Room) :
    (resetGame r).state = Phase.lobby ∧
    (resetGame r).round = 1 ∧
    (resetGame r).votes = [] ∧
    (resetGame r).imposterIds = [] ∧
    (resetGame r).word = "" ∧
    (resetGame r).turnOrder = [] ∧
    (resetGame r).currentTurnIndex = 0 ∧
    (resetGame r).players = r.players ∧
    (resetGame r).chats = r.chats ∧
    (resetGame r).historyLog = r.historyLog :=
  ⟨rfl, rfl, rfl, rfl, rfl, rfl, rfl, rfl, rfl, rfl⟩

/-! ### Claim C5 -/

/-- A three-player room at the start of the playing phase, `maxRounds = 3`. -/
def demoRoomC5 : Room :=
  { id := "R5", hostId := "A", state := Phase.playing, category := "Food",
    word := "Ramen", imposterIds := ["C"], imposterCount := 1, round := 1,
    maxRounds := 3,
    players := [("A", freshPlayer "Ana"), ("B", freshPlayer "Bo"),
                ("C", freshPlayer "Cy")],
    turnOrder := ["A", "B", "C"], currentTurnIndex := 0, votes := [], chats := [],
    historyLog := [] }

/-- C5: each turn advance increments `currentTurnIndex`, resets it to 0 and
increments `round` on overflow, enters the voting phase exactly when the
incremented round exceeds `maxRounds`, and clears every player's pass
acknowledgements; with `maxRounds = 3` and 3 players the 8th advance still
plays and the 9th one enters `VOTING`. -/
theorem claim_C5 :
    (∀ r : Room,
      (r.currentTurnIndex + 1 < r.turnOrder.length →
        (nextTurn r).currentTurnIndex = r.currentTurnIndex + 1 ∧
        (nextTurn r).round = r.round ∧ (nextTurn r).state = Phase.playing) ∧
      (r.currentTurnIndex + 1 ≥ r.turnOrder.length →
        (nextTurn r).currentTurnIndex = 0 ∧ (nextTurn r).round = r.round + 1 ∧
        (r.round + 1 > r.maxRounds → (nextTurn r).state = Phase.voting) ∧
        (¬ r.round + 1 > r.maxRounds → (nextTurn r).state = Phase.playing)) ∧
      (∀ uid p, lookupEntry r.players uid = some p →
        lookupEntry (nextTurn r).players uid = some { p with passedTurn := [] })) ∧
    (Nat.iterate nextTurn 8 demoRoomC5).state = Phase.playing ∧
    (Nat.iterate nextTurn 8 demoRoomC5).round = 3 ∧
    (Nat.iterate nextTurn 9 demoRoomC5).state = Phase.voting := by
  refine ⟨?_, by decide, by decide, by decide⟩
  intro r
  refine ⟨?_, ?_, ?_⟩
  · intro h
    have hc : ¬ (r.currentTurnIndex + 1 ≥ r.turnOrder.length) := by omega
    refine ⟨?_, ?_, ?_⟩ <;> simp [nextTurn, hc]
  · intro hc
    refine ⟨by simp [nextTurn, hc], by simp [nextTurn, hc], ?_, ?_⟩
    · intro hv
      simp [nextTurn, hc, hv]
    · intro hv
      simp [nextTurn, hc, hv]
  · intro uid p h
    have hl := lookupEntry_mapVal r.players
      (fun _ q => { q with passedTurn := ([] : List String) }) uid
    rw [h] at hl
    exact hl

theorem claim_C5_witness :
    (nextTurn demoRoomC5).currentTurnIndex = 1 ∧
    (nextTurn { demoRoomC5 with currentTurnIndex := 2, round := 3 }).state = Phase.voting ∧
    lookupEntry (nextTurn demoRoomC5).players "A" =
      some { freshPlayer "Ana" with passedTurn := [] } := by
  refine ⟨((claim_C5.1 demoRoomC5).1 (by decide)).1, ?_, ?_⟩
  · exact ((claim_C5.1 { demoRoomC5 with currentTurnIndex := 2, round := 3 }).2.1
      (by decide)).2.2.1 (by decide)
  · exact (claim_C5.1 demoRoomC5).2.2 "A" (freshPlayer "Ana") (by decide)

/-! ### Claim C6 -/

/-- A room whose single player `A` has accumulated a score of 5. -/
def demoRoomC6 : Room :=
  { id := "R6", hostId := "A", state := Phase.lobby, category := "Food",
    word := "", imposterIds := [], imposterCount := 1, round := 1, maxRounds := 3,
    players := [("A", { name := "Alice", score := 5, lastScoreGain := 0,
                        role := "Crew", isReady := false, passedTurn := [] })],
    turnOrder := [], currentTurnIndex := 0, votes := [], chats := [],
    historyLog := [] }

/-- A mesh-variant state whose player `A` has already joined. -/
def demoGM : GMState :=
  { roomId := "R", state := GMPhase.LOBBY,
    players := [{ id := "A", name := "Alice", isHost := true, score := 0,
                  passedCount := 0, votedFor := none }],
    messages := [], imposterId := none, secretWord := "", currentTurnId := none,
    round := 1, maxRounds := 3, startTime := 0 }

/-- C6 counterexample: in the document-store variant a repeated JOIN is not
a no-op: `joinRoom` overwrites the sender's existing Player record with a
fresh one, resetting the accumulated score 5 to 0. -/
theorem claim_C6_counterexample :
    lookupEntry demoRoomC6.players "A" =
      some { name := "Alice", score := 5, lastScoreGain := 0, role := "Crew",
             isReady := false, passedTurn := [] } ∧
    lookupEntry (joinRoom "A" "Alice" demoRoomC6).players "A" =
      some (freshPlayer "Alice") ∧
    (joinRoom "A" "Alice" demoRoomC6).players ≠ demoRoomC6.players ∧
    ((lookupEntry (joinRoom "A" "Alice" demoRoomC6).players "A").map Player.score) =
      some 0 := by
  decide

/-- C6 amended: in the mesh variant JOIN really is an idempotent silent
no-op for an already-joined sender; in the document-store variant a repeat
JOIN overwrites the record with a fresh zero-score one, yet in both cases
exactly one Player record per sender id results. -/
theorem claim_C6_amended :
    (∀ (rnd now : Nat) (st : GMState) (payload : Payload) (sender : String),
      (st.players.find? (fun p => p.id = sender)).isSome = true →
      handleMessage rnd now true st (NetMsg.action "JOIN" payload sender) = st) ∧
    (∀ (r : Room) (uid nm : String), (keysOf r.players).Nodup →
      (keysOf (joinRoom uid nm r).players).count uid = 1 ∧
      (keysOf (joinRoom uid nm r).players).Nodup ∧
      lookupEntry (joinRoom uid nm r).players uid = some (freshPlayer nm)) := by
  constructor
  · intro rnd now st payload sender h
    simp [handleMessage, h]
  · intro r uid nm hnd
    have hpl : (joinRoom uid nm r).players = setEntry r.players uid (freshPlayer nm) := rfl
    refine ⟨?_, ?_, ?_⟩
    · rw [hpl, keysOf_setEntry]
      by_cases hk : uid ∈ keysOf r.players
      · rw [if_pos hk]
        exact List.count_eq_one_of_mem hnd hk
      · rw [if_neg hk]
        rw [List.count_append]
        rw [List.count_eq_zero_of_not_mem hk]
        simp
    · rw [hpl]
      exact nodup_keys_setEntry r.players uid (freshPlayer nm) hnd
    · rw [hpl]
      exact lookupEntry_setEntry_same r.players uid (freshPlayer nm)

theorem claim_C6_witness :
    handleMessage 0 0 true demoGM (NetMsg.action "JOIN" { name := "Alice" } "A") =
      demoGM ∧
    (keysOf (joinRoom "A" "Alice" demoRoomC6).players).count "A" = 1 := by
  refine ⟨claim_C6_amended.1 0 0 demoGM { name := "Alice" } "A" (by decide), ?_⟩
  exact (claim_C6_amended.2 demoRoomC6 "A" "Alice" (by decide)).1

/-! ### Claim C2 -/

/-- A four-player lobby configured for two impostors. -/
def demoRoomC2 : Room :=
  { id := "R2", hostId := "A", state := Phase.lobby, category := "Food",
    word := "", imposterIds := [], imposterCount := 2, round := 1, maxRounds := 3,
    players := [("A", freshPlayer "Ana"), ("B", freshPlayer "Bo"),
                ("C", freshPlayer "Cy"), ("D", freshPlayer "Di")],
    turnOrder := [], currentTurnIndex := 0, votes := [], chats := [],
    historyLog := [] }

/-- C2 counterexample: with 4 players and `imposterCount = 2`, `startGame`
selects exactly 2 impostors, which equals half the player count, so the
strict bound `|impostorIds| < |players| / 2` fails in a `PLAYING`
snapshot. -/
theorem claim_C2_counterexample :
    (startGame "Sushi" ["A", "B", "C", "D"] ["B", "A", "D", "C"] 0 demoRoomC2).state =
      Phase.playing ∧
    (startGame "Sushi" ["A", "B", "C", "D"] ["B", "A", "D", "C"] 0
      demoRoomC2).imposterIds.length = 2 ∧
    (startGame "Sushi" ["A", "B", "C", "D"] ["B", "A", "D", "C"] 0
      demoRoomC2).players.length = 4 ∧
    ¬ (2 * (startGame "Sushi" ["A", "B", "C", "D"] ["B", "A", "D", "C"] 0
        demoRoomC2).imposterIds.length <
      (startGame "Sushi" ["A", "B", "C", "D"] ["B", "A", "D", "C"] 0
        demoRoomC2).players.length) := by
  decide

/-- C2 amended: `startGame` always selects at least one impostor and at
most `max (n / 2) 1` of the `n` players (so the bound is the floor of half
the player count, attained for even counts, rather than strictly below
half); the selected ids are player ids, and they are distinct whenever the
shuffle is duplicate-free. -/
theorem claim_C2_amended (r : Room) (word : String) (shuffled order : List String)
    (now : Nat) (hperm : shuffled.Perm (keysOf r.players))
    (hpos : 1 ≤ r.players.length) :
    1 ≤ (startGame word shuffled order now r).imposterIds.length ∧
    (startGame word shuffled order now r).imposterIds.length ≤
      max (r.players.length / 2) 1 ∧
    (∀ i ∈ (startGame word shuffled order now r).imposterIds,
      i ∈ keysOf (startGame word shuffled order now r).players) ∧
    (shuffled.Nodup → (startGame word shuffled order now r).imposterIds.Nodup) := by
  have hids : (startGame word shuffled order now r).imposterIds =
      shuffled.take (chosenImposterCount r.imposterCount (keysOf r.players).length) :=
    rfl
  have hkl : (keysOf r.players).length = r.players.length := by simp [keysOf]
  have hsl : shuffled.length = r.players.length := by rw [hperm.length_eq, hkl]
  have hkeys : keysOf (startGame word shuffled order now r).players = keysOf r.players := by
    simp [startGame, keysOf]
  have hc1 : 1 ≤ chosenImposterCount r.imposterCount (keysOf r.players).length := by
    unfold chosenImposterCount
    rw [hkl]
    by_cases h1 : r.imposterCount = 0 <;> by_cases h2 : r.players.length / 2 = 0 <;>
      simp [h1, h2] <;> omega
  have hc2 : chosenImposterCount r.imposterCount (keysOf r.players).length ≤
      max (r.players.length / 2) 1 := by
    unfold chosenImposterCount
    rw [hkl]
    by_cases h2 : r.players.length / 2 = 0
    · calc min (if r.imposterCount = 0 then 1 else r.imposterCount)
            (if r.players.length / 2 = 0 then 1 else r.players.length / 2)
          ≤ (if r.players.length / 2 = 0 then 1 else r.players.length / 2) :=
            min_le_right _ _
        _ = 1 := by rw [if_pos h2]
        _ ≤ max (r.players.length / 2) 1 := le_max_right _ _
    · calc min (if r.imposterCount = 0 then 1 else r.imposterCount)
            (if r.players.length / 2 = 0 then 1 else r.players.length / 2)
          ≤ (if r.players.length / 2 = 0 then 1 else r.players.length / 2) :=
            min_le_right _ _
        _ = r.players.length / 2 := by rw [if_neg h2]
        _ ≤ max (r.players.length / 2) 1 := le_max_left _ _
  have hlen : (startGame word shuffled order now r).imposterIds.length =
      min (chosenImposterCount r.imposterCount (keysOf r.players).length)
        shuffled.length := by
    rw [hids, List.length_take]
  refine ⟨?_, ?_, ?_, ?_⟩
  · rw [hlen]
    have : 1 ≤ shuffled.length := by omega
    omega
  · rw [hlen]
    have : min (chosenImposterCount r.imposterCount (keysOf r.players).length)
        shuffled.length ≤ chosenImposterCount r.imposterCount (keysOf r.players).length :=
      min_le_left _ _
    omega
  · intro i hi
    rw [hids] at hi
    rw [hkeys]
    exact hperm.mem_iff.mp (List.take_subset _ _ hi)
  · intro hnd
    rw [hids]
    exact hnd.sublist (List.take_sublist _ _)

theorem claim_C2_witness :
    1 ≤ (startGame "Sushi" ["A", "B", "C", "D"] ["B", "A", "D", "C"] 0
      demoRoomC2).imposterIds.length ∧
    (startGame "Sushi" ["A", "B", "C", "D"] ["B", "A", "D", "C"] 0
      demoRoomC2).imposterIds.length ≤ max (demoRoomC2.players.length / 2) 1 := by
  have h := claim_C2_amended demoRoomC2 "Sushi" ["A", "B", "C", "D"]
    ["B", "A", "D", "C"] 0 (by decide) (by decide)
  exact ⟨h.1, h.2.1⟩

/-! ### Claim C4 -/

/-- Two players, `A` holding the turn (`turnOrder[0] = "A"`). -/
def demoRoomC4 : Room :=
  { id := "R4", hostId := "A", state := Phase.playing, category := "Food",
    word := "Kebab", imposterIds := ["B"], imposterCount := 1, round := 1,
    maxRounds := 3,
    players := [("A", freshPlayer "Ana"), ("B", freshPlayer "Bo")],
    turnOrder := ["A", "B"], currentTurnIndex := 0, votes := [], chats := [],
    historyLog := [] }

/-- Like `demoRoomC4` but `A` has already acknowledged a pass for `B`. -/
def demoRoomC4b : Room :=
  { demoRoomC4 with
      players := [("A", freshPlayer "Ana"),
                  ("B", { freshPlayer "Bo" with passedTurn := ["A"] })] }

/-- A single-player room, so one acknowledgement is a strict majority. -/
def demoRoomC4c : Room :=
  { demoRoomC4 with players := [("A", freshPlayer "Ana")], turnOrder := ["A"] }

/-- C4 counterexample: `passTurn` records the sender's acknowledgement for
`targetId` even when `targetId` is not the player at
`turnOrder[currentTurnIndex]`: with `A` holding the turn, `passTurn`
aimed at `B` still records the acknowledgement on `B`. -/
theorem claim_C4_counterexample :
    demoRoomC4.turnOrder.get? demoRoomC4.currentTurnIndex = some "A" ∧
    ("B" : String) ≠ "A" ∧
    lookupEntry (passTurn "A" "B" demoRoomC4).players "B" =
      some { freshPlayer "Bo" with passedTurn := ["A"] } := by
  decide

/-- C4 amended: `passTurn(targetId)` records the sender's acknowledgement
for `targetId` (with no check that `targetId` is the current turn-holder)
if and only if the sender has not already acknowledged for that target,
and the turn advances exactly when the acknowledgement count for the
target exceeds half the player count (strict majority). -/
theorem claim_C4_amended (r : Room) (uid targetId : String) (tp : Player)
    (h : lookupEntry r.players targetId = some tp) :
    (uid ∈ tp.passedTurn → passTurn uid targetId r = r) ∧
    (uid ∉ tp.passedTurn → ¬ ((tp.passedTurn.length + 1) * 2 > r.players.length) →
      passTurn uid targetId r =
        { r with players := setEntry r.players targetId { tp with passedTurn := tp.passedTurn ++ [uid] } } ∧
      lookupEntry (passTurn uid targetId r).players targetId =
        some { tp with passedTurn := tp.passedTurn ++ [uid] } ∧
      (passTurn uid targetId r).currentTurnIndex = r.currentTurnIndex ∧
      (passTurn uid targetId r).state = r.state ∧
      (passTurn uid targetId r).round = r.round) ∧
    (uid ∉ tp.passedTurn → (tp.passedTurn.length + 1) * 2 > r.players.length →
      passTurn uid targetId r = nextTurn
        { r with players := setEntry r.players targetId { tp with passedTurn := tp.passedTurn ++ [uid] } }) := by
  have hbody : passTurn uid targetId r =
      (if uid ∈ tp.passedTurn then r
       else if (tp.passedTurn ++ [uid]).length * 2 > r.players.length then
         nextTurn { r with players := setEntry r.players targetId { tp with passedTurn := tp.passedTurn ++ [uid] } }
       else { r with players := setEntry r.players targetId { tp with passedTurn := tp.passedTurn ++ [uid] } }) := by
    unfold passTurn
    rw [h]
  refine ⟨?_, ?_, ?_⟩
  · intro hin
    rw [hbody, if_pos hin]
  · intro hnin hth
    have hth2 : ¬ ((tp.passedTurn ++ [uid]).length * 2 > r.players.length) := by
      simp only [List.length_append, List.length_singleton]
      omega
    rw [hbody, if_neg hnin, if_neg hth2]
    exact ⟨rfl, lookupEntry_setEntry_same r.players targetId _, rfl, rfl, rfl⟩
  · intro hnin hth
    have hth2 : (tp.passedTurn ++ [uid]).length * 2 > r.players.length := by
      simp only [List.length_append, List.length_singleton]
      omega
    rw [hbody, if_neg hnin, if_pos hth2]

theorem claim_C4_witness :
    passTurn "A" "B" demoRoomC4b = demoRoomC4b ∧
    lookupEntry (passTurn "A" "B" demoRoomC4).players "B" =
      some { freshPlayer "Bo" with passedTurn := ["A"] } ∧
    passTurn "B" "A" demoRoomC4c = nextTurn
      { demoRoomC4c with players := setEntry demoRoomC4c.players "A" { freshPlayer "Ana" with passedTurn := ["B"] } } := by
  refine ⟨?_, ?_, ?_⟩
  · exact (claim_C4_amended demoRoomC4b "A" "B"
      { freshPlayer "Bo" with passedTurn := ["A"] } (by decide)).1 (by decide)
  · exact ((claim_C4_amended demoRoomC4 "A" "B" (freshPlayer "Bo")
      (by decide)).2.1 (by decide) (by decide)).2.1
  · exact (claim_C4_amended demoRoomC4c "B" "A" (freshPlayer "Ana")
      (by decide)).2.2 (by decide) (by decide)

/-! ### Claim C7 -/

/-- C7 counterexample: a JOIN arriving while the phase is `playing` adds a
player id without extending `turnOrder`, so the permutation property of
the turn order is broken in a `PLAYING` snapshot. -/
theorem claim_C7_counterexample :
    (joinRoom "D" "Di" demoRoomC5).state = Phase.playing ∧
    demoRoomC5.turnOrder.Perm (keysOf demoRoomC5.players) ∧
    ¬ ((joinRoom "D" "Di" demoRoomC5).turnOrder.Perm
        (keysOf (joinRoom "D" "Di" demoRoomC5).players)) := by
  refine ⟨by decide, ?_, ?_⟩
  · have h1 : demoRoomC5.turnOrder = ["A", "B", "C"] := rfl
    have h2 : keysOf demoRoomC5.players = ["A", "B", "C"] := rfl
    rw [h1, h2]
  · intro hcon
    have hlen := hcon.length_eq
    revert hlen
    decide

/-- C7 amended: `START_GAME` establishes the turn-pointer bound and the
permutation property, and `nextTurn`, `castVote` and `passTurn` preserve
them; only a mid-game JOIN (see the counterexample) can break the
permutation property while the phase stays `PLAYING`. -/
theorem claim_C7_amended :
    (∀ (r : Room) (word : String) (shuffled order : List String) (now : Nat),
      order.Perm (keysOf r.players) → 0 < r.players.length →
      (startGame word shuffled order now r).state = Phase.playing ∧
      (startGame word shuffled order now r).currentTurnIndex = 0 ∧
      (startGame word shuffled order now r).currentTurnIndex <
        (startGame word shuffled order now r).turnOrder.length ∧
      (startGame word shuffled order now r).turnOrder.Perm
        (keysOf (startGame word shuffled order now r).players)) ∧
    (∀ r : Room,
      (nextTurn r).turnOrder = r.turnOrder ∧
      keysOf (nextTurn r).players = keysOf r.players ∧
      (r.currentTurnIndex < r.turnOrder.length →
        (nextTurn r).currentTurnIndex < (nextTurn r).turnOrder.length) ∧
      (r.turnOrder.Perm (keysOf r.players) →
        (nextTurn r).turnOrder.Perm (keysOf (nextTurn r).players))) ∧
    (∀ (uid t : String) (r : Room),
      (castVote uid t r).turnOrder = r.turnOrder ∧
      (castVote uid t r).players = r.players ∧
      (castVote uid t r).currentTurnIndex = r.currentTurnIndex ∧
      (castVote uid t r).state = r.state) ∧
    (∀ (uid t : String) (r : Room) (tp : Player),
      lookupEntry r.players t = some tp →
      (passTurn uid t r).turnOrder = r.turnOrder ∧
      keysOf (passTurn uid t r).players = keysOf r.players ∧
      (r.currentTurnIndex < r.turnOrder.length →
        (passTurn uid t r).currentTurnIndex < (passTurn uid t r).turnOrder.length) ∧
      (r.turnOrder.Perm (keysOf r.players) →
        (passTurn uid t r).turnOrder.Perm (keysOf (passTurn uid t r).players))) := by
  have hnextTO : ∀ r : Room, (nextTurn r).turnOrder = r.turnOrder := fun r => rfl
  have hnextKeys : ∀ r : Room, keysOf (nextTurn r).players = keysOf r.players := by
    intro r
    have hp : (nextTurn r).players =
        r.players.map (fun e => (e.1, { e.2 with passedTurn := ([] : List String) })) := rfl
    rw [hp]
    simp [keysOf]
  have hnextIdx : ∀ r : Room, r.currentTurnIndex < r.turnOrder.length →
      (nextTurn r).currentTurnIndex < (nextTurn r).turnOrder.length := by
    intro r h
    rw [hnextTO]
    by_cases hc : r.currentTurnIndex + 1 ≥ r.turnOrder.length
    · have hz : (nextTurn r).currentTurnIndex = 0 := by simp [nextTurn, hc]
      rw [hz]
      omega
    · have hz : (nextTurn r).currentTurnIndex = r.currentTurnIndex + 1 := by
        simp [nextTurn, hc]
      rw [hz]
      omega
  refine ⟨?_, ?_, ?_, ?_⟩
  · intro r word shuffled order now hperm hpos
    have hto : (startGame word shuffled order now r).turnOrder = order := rfl
    have hkeys : keysOf (startGame word shuffled order now r).players =
        keysOf r.players := by
      simp [startGame, keysOf]
    refine ⟨rfl, rfl, ?_, ?_⟩
    · have hidx : (startGame word shuffled order now r).currentTurnIndex = 0 := rfl
      rw [hidx, hto, hperm.length_eq]
      simpa [keysOf] using hpos
    · rw [hto, hkeys]
      exact hperm
  · intro r
    refine ⟨hnextTO r, hnextKeys r, hnextIdx r, ?_⟩
    intro hperm
    rw [hnextTO, hnextKeys]
    exact hperm
  · intro uid t r
    exact ⟨rfl, rfl, rfl, rfl⟩
  · intro uid t r tp h
    have htmem : t ∈ keysOf r.players := mem_keys_of_lookupEntry_eq_some r.players t tp h
    have hbody : passTurn uid t r =
        (if uid ∈ tp.passedTurn then r
         else if (tp.passedTurn ++ [uid]).length * 2 > r.players.length then
           nextTurn { r with players := setEntry r.players t { tp with passedTurn := tp.passedTurn ++ [uid] } }
         else { r with players := setEntry r.players t { tp with passedTurn := tp.passedTurn ++ [uid] } }) := by
      unfold passTurn
      rw [h]
    have hkeysSet : keysOf (setEntry r.players t { tp with passedTurn := tp.passedTurn ++ [uid] }) =
        keysOf r.players := by
      rw [keysOf_setEntry, if_pos htmem]
    by_cases hin : uid ∈ tp.passedTurn
    · rw [hbody, if_pos hin]
      exact ⟨rfl, rfl, fun h2 => h2, fun hp => hp⟩
    · by_cases hth : (tp.passedTurn ++ [uid]).length * 2 > r.players.length
      · rw [hbody, if_neg hin, if_pos hth]
        set r1 : Room :=
          { r with players := setEntry r.players t { tp with passedTurn := tp.passedTurn ++ [uid] } } with hr1
        have hto1 : r1.turnOrder = r.turnOrder := rfl
        have hkeys1 : keysOf r1.players = keysOf r.players := hkeysSet
        refine ⟨?_, ?_, ?_, ?_⟩
        · rw [hnextTO, hto1]
        · rw [hnextKeys, hkeys1]
        · intro h2
          have := hnextIdx r1 (by rw [hto1]; exact h2)
          rw [hnextTO, hto1] at this ⊢
          exact this
        · intro hperm
          rw [hnextTO, hnextKeys, hto1, hkeys1]
          exact hperm
      · rw [hbody, if_neg hin, if_neg hth]
        refine ⟨rfl, hkeysSet, fun h2 => h2, ?_⟩
        intro hperm
        show r.turnOrder.Perm (keysOf (setEntry r.players t { tp with passedTurn := tp.passedTurn ++ [uid] }))
        rw [hkeysSet]
        exact hperm

theorem claim_C7_witness :
    (startGame "Pho" ["A", "B", "C"] ["C", "A", "B"] 0
      { demoRoomC5 with state := Phase.lobby }).turnOrder.Perm
      (keysOf (startGame "Pho" ["A", "B", "C"] ["C", "A", "B"] 0
        { demoRoomC5 with state := Phase.lobby }).players) ∧
    (nextTurn demoRoomC5).currentTurnIndex < (nextTurn demoRoomC5).turnOrder.length ∧
    keysOf (passTurn "A" "B" demoRoomC4).players = keysOf demoRoomC4.players := by
  refine ⟨?_, ?_, ?_⟩
  · exact (claim_C7_amended.1 { demoRoomC5 with state := Phase.lobby } "Pho"
      ["A", "B", "C"] ["C", "A", "B"] 0 (by decide) (by decide)).2.2.2
  · exact ((claim_C7_amended.2.1 demoRoomC5).2.2.1 (by decide))
  · exact (claim_C7_amended.2.2.2 "A" "B" demoRoomC4 (freshPlayer "Bo") (by decide)).2.1

/-! ### Claim C3 -/

/-- Three players with the impostor `C`; `A` and `B` vote for `C`, `C`
votes for `A`. -/
def demoRoomC3 : Room :=
  { id := "R3", hostId := "A", state := Phase.voting, category := "Food",
    word := "Curry", imposterIds := ["C"], imposterCount := 1, round := 4,
    maxRounds := 3,
    players := [("A", { name := "Ana", score := 3, lastScoreGain := 0,
                        role := "Crew", isReady := false, passedTurn := [] }),
                ("B", { name := "Bo", score := 4, lastScoreGain := 0,
                        role := "Crew", isReady := false, passedTurn := [] }),
                ("C", { name := "Cy", score := 5, lastScoreGain := 0,
                        role := "Imposter", isReady := false, passedTurn := [] })],
    turnOrder := ["A", "B", "C"], currentTurnIndex := 0,
    votes := [("A", "C"), ("B", "C"), ("C", "A")], chats := [],
    historyLog := [] }

/-- C3: the target with strictly more votes than every other target is
voted out (ties yield `none`, which counts as the impostors evading); the
impostors are caught exactly when the voted-out target is one of them;
when caught every non-impostor gains the fixed award 10, and when the
impostors evade every impostor gains the larger fixed award 20. -/
theorem claim_C3 (r : Room) (dateStr : String) (dur now : Nat)
    (hnd : r.imposterIds.Nodup) :
    (∀ t, votedOut r.votes = some t ↔
      t ∈ voteTargets r.votes ∧
      ∀ u ∈ voteTargets r.votes, u ≠ t →
        countVotesFor r.votes u < countVotesFor r.votes t) ∧
    (∀ t1 t2, t1 ∈ voteTargets r.votes → t2 ∈ voteTargets r.votes → t1 ≠ t2 →
      countVotesFor r.votes t1 = countVotesFor r.votes t2 →
      (∀ u ∈ voteTargets r.votes, countVotesFor r.votes u ≤ countVotesFor r.votes t1) →
      votedOut r.votes = none) ∧
    (imposterCaught r = true ↔ ∃ t, votedOut r.votes = some t ∧ t ∈ r.imposterIds) ∧
    (∀ uid p, lookupEntry r.players uid = some p →
      (imposterCaught r = true → uid ∉ r.imposterIds →
        lookupEntry (calculateResults dateStr dur now r).players uid =
          some { p with score := p.score + 10, lastScoreGain := 10 }) ∧
      (imposterCaught r = true → uid ∈ r.imposterIds →
        lookupEntry (calculateResults dateStr dur now r).players uid =
          some { p with lastScoreGain := 0 }) ∧
      (imposterCaught r = false → uid ∈ r.imposterIds →
        lookupEntry (calculateResults dateStr dur now r).players uid =
          some { p with score := p.score + 20, lastScoreGain := 20 }) ∧
      (imposterCaught r = false → uid ∉ r.imposterIds →
        lookupEntry (calculateResults dateStr dur now r).players uid =
          some { p with lastScoreGain := 0 })) ∧
    ((10 : Int) < 20) := by
  refine ⟨votedOut_eq_some_iff r.votes, ?_, ?_, ?_, by norm_num⟩
  · intro t1 t2 h1 h2 hne heq hmax
    cases hv : votedOut r.votes with
    | none => rfl
    | some t =>
        obtain ⟨hmem, hwin⟩ := (votedOut_eq_some_iff r.votes t).mp hv
        by_cases ht1 : t1 = t
        · have hlt := hwin t2 h2 (fun hcon => hne (by rw [ht1, hcon]))
          rw [← ht1] at hlt
          omega
        · have hlt := hwin t1 h1 ht1
          have hle := hmax t hmem
          omega
  · cases hv : votedOut r.votes with
    | none => simp [imposterCaught, hv]
    | some v => simp [imposterCaught, hv]
  · intro uid p h
    have hps : (calculateResults dateStr dur now r).players =
        (if imposterCaught r then
          (r.players.map (fun e => (e.1, { e.2 with lastScoreGain := (0 : Int) }))).map
            (fun e => if r.imposterIds.contains e.1 then e
                      else (e.1, { e.2 with score := e.2.score + 10, lastScoreGain := (10 : Int) }))
        else
          r.imposterIds.foldl (fun ps i =>
            ps.map (fun e =>
              if e.1 = i then (e.1, { e.2 with score := e.2.score + 20, lastScoreGain := (20 : Int) })
              else e))
            (r.players.map (fun e => (e.1, { e.2 with lastScoreGain := (0 : Int) })))) := rfl
    have h1 : lookupEntry
        (r.players.map (fun e => (e.1, { e.2 with lastScoreGain := (0 : Int) }))) uid =
        some { p with lastScoreGain := (0 : Int) } := by
      have hl := lookupEntry_mapVal r.players
        (fun _ q => { q with lastScoreGain := (0 : Int) }) uid
      rw [h] at hl
      exact hl
    refine ⟨?_, ?_, ?_, ?_⟩
    · intro hc hmem
      have hcont : r.imposterIds.contains uid = false := by
        simpa using hmem
      have hb := lookup_branchMap
        (r.players.map (fun e => (e.1, { e.2 with lastScoreGain := (0 : Int) }))) uid
        (fun k => r.imposterIds.contains k)
        (fun q => { q with score := q.score + 10, lastScoreGain := (10 : Int) })
      simp only [] at hb
      rw [h1, hcont] at hb
      rw [hps, hc, if_pos rfl]
      rw [if_neg (by simp)] at hb
      exact hb
    · intro hc hmem
      have hcont : r.imposterIds.contains uid = true := by
        simpa using hmem
      have hb := lookup_branchMap
        (r.players.map (fun e => (e.1, { e.2 with lastScoreGain := (0 : Int) }))) uid
        (fun k => r.imposterIds.contains k)
        (fun q => { q with score := q.score + 10, lastScoreGain := (10 : Int) })
      simp only [] at hb
      rw [h1, hcont] at hb
      rw [hps, hc, if_pos rfl]
      rw [if_pos rfl] at hb
      exact hb
    · intro hc hmem
      have hf := lookup_awardFold
        (fun q => { q with score := q.score + 20, lastScoreGain := (20 : Int) })
        r.imposterIds
        (r.players.map (fun e => (e.1, { e.2 with lastScoreGain := (0 : Int) }))) uid hnd
      simp only [] at hf
      rw [h1, if_pos hmem] at hf
      rw [hps, hc, if_neg (by simp)]
      exact hf
    · intro hc hmem
      have hf := lookup_awardFold
        (fun q => { q with score := q.score + 20, lastScoreGain := (20 : Int) })
        r.imposterIds
        (r.players.map (fun e => (e.1, { e.2 with lastScoreGain := (0 : Int) }))) uid hnd
      simp only [] at hf
      rw [h1, if_neg hmem] at hf
      rw [hps, hc, if_neg (by simp)]
      exact hf

theorem claim_C3_witness :
    votedOut demoRoomC3.votes = some "C" ∧
    imposterCaught demoRoomC3 = true ∧
    lookupEntry (calculateResults "d" 7 8 demoRoomC3).players "A" =
      some { name := "Ana", score := 13, lastScoreGain := 10, role := "Crew",
             isReady := false, passedTurn := [] } ∧
    lookupEntry (calculateResults "d" 7 8 demoRoomC3).players "C" =
      some { name := "Cy", score := 5, lastScoreGain := 0, role := "Imposter",
             isReady := false, passedTurn := [] } := by
  have h := claim_C3 demoRoomC3 "d" 7 8 (by decide)
  have hv : votedOut demoRoomC3.votes = some "C" := (h.1 "C").mpr (by decide)
  have hc : imposterCaught demoRoomC3 = true := (h.2.2.1).mpr ⟨"C", hv, by decide⟩
  refine ⟨hv, hc, ?_, ?_⟩
  · have := (h.2.2.2.1 "A"
      { name := "Ana", score := 3, lastScoreGain := 0, role := "Crew",
        isReady := false, passedTurn := [] } (by decide)).1 hc (by decide)
    exact this
  · have := (h.2.2.2.1 "C"
      { name := "Cy", score := 5, lastScoreGain := 0, role := "Imposter",
        isReady := false, passedTurn := [] } (by decide)).2.1 hc (by decide)
    exact this

/-! ### Claim C9 -/

/-- The refined award schedule written out as the spec words it, for
comparison with the source's `refinedGain`: +2 to a non-impostor voting
correctly for any impostor, -1 to a non-impostor who voted but was wrong,
+1 bonus to a (non-impostor) voter who joined the majority when that
majority met the catch threshold (strictly more than half the players),
and +3 to each impostor if not caught. -/
def specRefinedGain (r : Room) (id : String) : Int :=
  if id ∈ r.imposterIds then
    match votedOut r.votes with
    | some w => if w ∈ r.imposterIds then 0 else 3
    | none => 3
  else
    (match lookupEntry r.votes id with
     | some v => if v ∈ r.imposterIds then 2 else -1
     | none => 0) +
    (match votedOut r.votes, lookupEntry r.votes id with
     | some w, some v =>
         if v = w ∧ r.players.length / 2 + 1 ≤ countVotesFor r.votes w then 1 else 0
     | _, _ => 0)

theorem specRefinedGain_eq (r : Room) (id : String) :
    specRefinedGain r id = refinedGain r id := by
  have hbridge : ∀ w, votedOut r.votes = some w →
      (lookupEntry (voteCounts r.votes) w).getD 0 = countVotesFor r.votes w := by
    intro w hw
    have hmem : w ∈ voteTargets r.votes := ((votedOut_eq_some_iff r.votes w).mp hw).1
    rw [lookup_voteCounts, if_pos hmem]
    rfl
  by_cases hid : id ∈ r.imposterIds
  · cases hv : votedOut r.votes with
    | none => simp [specRefinedGain, refinedGain, imposterCaught, hv, hid]
    | some w =>
        by_cases hw : w ∈ r.imposterIds
        · simp [specRefinedGain, refinedGain, imposterCaught, hv, hid, hw]
        · simp [specRefinedGain, refinedGain, imposterCaught, hv, hid, hw]
  · cases hv : votedOut r.votes with
    | none =>
        cases hm : lookupEntry r.votes id with
        | none => simp [specRefinedGain, refinedGain, hv, hm, hid]
        | some v =>
            by_cases hvimp : v ∈ r.imposterIds
            · simp [specRefinedGain, refinedGain, hv, hm, hid, hvimp]
            · simp [specRefinedGain, refinedGain, hv, hm, hid, hvimp]
    | some w =>
        cases hm : lookupEntry r.votes id with
        | none => simp [specRefinedGain, refinedGain, hv, hm, hid]
        | some v =>
            have hb := hbridge w hv
            by_cases hvimp : v ∈ r.imposterIds
            · simp [specRefinedGain, refinedGain, imposterCaught, hv, hm, hid, hvimp, hb]
            · simp [specRefinedGain, refinedGain, imposterCaught, hv, hm, hid, hvimp, hb]

/-- C9: the refined-scoring `calculateResults` moves every player's score
by exactly the spec's award schedule (`specRefinedGain`), which coincides
with the gain the code computes, and records it as the round's
`lastScoreGain`. -/
theorem claim_C9 (r : Room) (dateStr : String) (dur now : Nat) (uid : String)
    (p : Player) (h : lookupEntry r.players uid = some p) :
    specRefinedGain r uid = refinedGain r uid ∧
    lookupEntry (calculateResultsRefined dateStr dur now r).players uid =
      some { p with score := p.score + specRefinedGain r uid, lastScoreGain := specRefinedGain r uid } := by
  refine ⟨specRefinedGain_eq r uid, ?_⟩
  rw [specRefinedGain_eq r uid]
  have hl := lookupEntry_mapVal r.players (fun k q => { q with score := q.score + refinedGain r k, lastScoreGain := refinedGain r k }) uid
  rw [h] at hl
  exact hl

theorem claim_C9_witness :
    specRefinedGain demoRoomC3 "A" = refinedGain demoRoomC3 "A" ∧
    lookupEntry (calculateResultsRefined "d" 7 8 demoRoomC3).players "A" =
      some { name := "Ana", score := 3 + specRefinedGain demoRoomC3 "A", lastScoreGain := specRefinedGain demoRoomC3 "A", role := "Crew", isReady := false, passedTurn := [] } :=
  claim_C9 demoRoomC3 "d" 7 8 "A"
    { name := "Ana", score := 3, lastScoreGain := 0, role := "Crew", isReady := false, passedTurn := [] } (by decide)

end ImposterGame
